import Mathlib

/-!
Verification of the PISS (Projects Information Storage System) repository.

This file gives a shallow embedding, in Lean 4, of the pure core of the
repository (src/piss.py, src/anitya.py, src/chores.py, src/piss/chores.py)
and proves or refutes the frozen claims about it.

Modelling conventions:
* Python strings are modelled as `String` / `List Char`; the character
  classes of the regexes (`\d`, `[A-Za-z]`, `\w`) are modelled over ASCII,
  matching the data the program actually handles.
* Python `int` is `Int` (arbitrary precision in both); Python `float`
  values are modelled as exact fractions (only parse success, sign and
  small exact values are used by any claim here).
* Fallible Python code (uncaught exceptions) is modelled with `Except`.
* Each regex of the source is translated into an explicit matching
  function with Python backtracking semantics: leftmost alternative
  first, lazy quantifiers shortest-first, greedy ones longest-first.
-/

namespace Piss

/-! ## Generic comparator framework

`cmp = lambda a, b: ((a > b) - (a < b))` in piss.py; the nested loops of
`version_compare` both follow the pattern: pop the heads (padding with a
default when one list is exhausted), compare them, return the first
nonzero result.  `seqCmp` captures that loop once, and `IsCmp` is the
bundle of properties (reflexivity, antisymmetry, range, transitivity)
making such a function the comparison function of a total preorder. -/

def icmp (a b : Int) : Int :=
  if a < b then -1 else if b < a then 1 else 0

/-- The bundle of properties making `f` the comparison function of a total
preorder on the set `G`. -/
structure IsCmp {α : Type} (G : α → Prop) (f : α → α → Int) : Prop where
  refl : ∀ x, G x → f x x = 0
  antisym : ∀ x y, G x → G y → f x y = -(f y x)
  range : ∀ x y, G x → G y → f x y = -1 ∨ f x y = 0 ∨ f x y = 1
  le_trans : ∀ x y z, G x → G y → G z → f x y ≤ 0 → f y z ≤ 0 → f x z ≤ 0

theorem icmp_isCmp : IsCmp (fun _ => True) icmp := by
  constructor
  · intro x _
    simp [icmp]
  · intro x y _ _
    unfold icmp
    split_ifs <;> omega
  · intro x y _ _
    unfold icmp
    split_ifs <;> omega
  · intro x y z _ _ _ h1 h2
    unfold icmp at h1 h2 ⊢
    split_ifs at h1 h2 ⊢ <;> omega

theorem IsCmp.zero_trans {α : Type} {G : α → Prop} {f : α → α → Int}
    (h : IsCmp G f) {x y z : α} (hx : G x) (hy : G y) (hz : G z)
    (hxy : f x y = 0) (hyz : f y z = 0) : f x z = 0 := by
  have h1 : f x z ≤ 0 := h.le_trans x y z hx hy hz (by omega) (by omega)
  have hyx : f y x = 0 := by have := h.antisym x y hx hy; omega
  have hzy : f z y = 0 := by have := h.antisym y z hy hz; omega
  have h2 : f z x ≤ 0 := h.le_trans z y x hz hy hx (by omega) (by omega)
  have h3 := h.antisym x z hx hz
  omega

theorem IsCmp.neg_zero_trans {α : Type} {G : α → Prop} {f : α → α → Int}
    (h : IsCmp G f) {x y z : α} (hx : G x) (hy : G y) (hz : G z)
    (hxy : f x y = -1) (hyz : f y z = 0) : f x z = -1 := by
  have h1 : f x z ≤ 0 := h.le_trans x y z hx hy hz (by omega) (by omega)
  rcases h.range x z hx hz with h0 | h0 | h0
  · exact h0
  · exfalso
    have hzx : f z x = 0 := by have := h.antisym x z hx hz; omega
    have hxy0 : f x y = 0 := by
      have hzy : f z y = 0 := by have := h.antisym y z hy hz; omega
      have hxz : f x z = 0 := h0
      exact h.zero_trans hx hz hy hxz hzy
    omega
  · omega

theorem IsCmp.zero_neg_trans {α : Type} {G : α → Prop} {f : α → α → Int}
    (h : IsCmp G f) {x y z : α} (hx : G x) (hy : G y) (hz : G z)
    (hxy : f x y = 0) (hyz : f y z = -1) : f x z = -1 := by
  have hzy : f z y = 1 := by have := h.antisym y z hy hz; omega
  have hyx : f y x = 0 := by have := h.antisym x y hx hy; omega
  have h1 : f x z ≤ 0 := h.le_trans x y z hx hy hz (by omega) (by omega)
  rcases h.range x z hx hz with h0 | h0 | h0
  · exact h0
  · exfalso
    have hzx : f z x = 0 := by have := h.antisym x z hx hz; omega
    have hzy0 : f z y = 0 := h.zero_trans hz hx hy hzx hxy
    omega
  · omega

theorem IsCmp.neg_trans {α : Type} {G : α → Prop} {f : α → α → Int}
    (h : IsCmp G f) {x y z : α} (hx : G x) (hy : G y) (hz : G z)
    (hxy : f x y = -1) (hyz : f y z = -1) : f x z = -1 := by
  have h1 : f x z ≤ 0 := h.le_trans x y z hx hy hz (by omega) (by omega)
  rcases h.range x z hx hz with h0 | h0 | h0
  · exact h0
  · exfalso
    have hzx : f z x = 0 := by have := h.antisym x z hx hz; omega
    have hyx : f y x = -1 := h.neg_zero_trans hy hz hx hyz hzx
    have := h.antisym x y hx hy
    omega
  · omega

theorem IsCmp.congr_left {α : Type} {G : α → Prop} {f : α → α → Int}
    (h : IsCmp G f) {x y z : α} (hx : G x) (hy : G y) (hz : G z)
    (hxy : f x y = 0) : f x z = f y z := by
  rcases h.range y z hy hz with h0 | h0 | h0
  · rw [h0]; exact h.zero_neg_trans hx hy hz hxy h0
  · rw [h0]; exact h.zero_trans hx hy hz hxy h0
  · rw [h0]
    have hzy : f z y = -1 := by have := h.antisym y z hy hz; omega
    have hyx : f y x = 0 := by have := h.antisym x y hx hy; omega
    have hzx : f z x = -1 := h.neg_zero_trans hz hy hx hzy hyx
    have := h.antisym x z hx hz
    omega

theorem IsCmp.congr_right {α : Type} {G : α → Prop} {f : α → α → Int}
    (h : IsCmp G f) {x y z : α} (hx : G x) (hy : G y) (hz : G z)
    (hyz : f y z = 0) : f x y = f x z := by
  have hy' : f y x = f z x := h.congr_left hy hz hx hyz
  have h1 := h.antisym x y hx hy
  have h2 := h.antisym x z hx hz
  have h3 := h.antisym z x hz hx
  omega

theorem headD_G {α : Type} {G : α → Prop} {d : α} (hdG : G d)
    {l : List α} (hl : ∀ x ∈ l, G x) : G (l.headD d) := by
  cases l with
  | nil => exact hdG
  | cons a la => exact hl a (by simp)

theorem tail_G {α : Type} {G : α → Prop} {l : List α}
    (hl : ∀ x ∈ l, G x) : ∀ x ∈ l.tail, G x := by
  cases l with
  | nil => simp
  | cons a la => exact fun x hx => hl x (List.mem_cons_of_mem a hx)

/-- The loop of `_version_cmp_string` / `_version_cmp_part` once the left
list is exhausted: keep comparing the default against the remaining right
elements. -/
def seqCmpR {α : Type} (f : α → α → Int) (d : α) : List α → Int
  | [] => 0
  | b :: lb => if f d b = 0 then seqCmpR f d lb else f d b

/-- One round of the shared loop shape of `_version_cmp_string` and
`_version_cmp_part` in piss.py: pop both heads (default `d` when a list is
exhausted), return the head comparison if it is nonzero, else continue.
Structured as recursion on the left list so that it reduces in the
kernel. -/
def seqCmp {α : Type} (f : α → α → Int) (d : α) : List α → List α → Int
  | [], lb => seqCmpR f d lb
  | a :: la, lb =>
    if f a (lb.headD d) = 0 then seqCmp f d la lb.tail else f a (lb.headD d)

theorem seqCmp_step {α : Type} (f : α → α → Int) (d : α)
    (hd : f d d = 0) (la lb : List α) :
    seqCmp f d la lb =
      (if f (la.headD d) (lb.headD d) = 0 then seqCmp f d la.tail lb.tail
       else f (la.headD d) (lb.headD d)) := by
  cases la <;> cases lb <;> simp [seqCmp, seqCmpR, hd]

theorem seqCmp_refl {α : Type} {G : α → Prop} {f : α → α → Int} {d : α}
    (h : IsCmp G f) :
    ∀ l : List α, (∀ x ∈ l, G x) → seqCmp f d l l = 0 := by
  intro l hl
  induction l with
  | nil => simp [seqCmp, seqCmpR]
  | cons a la ih =>
    have ha : f a a = 0 := h.refl a (hl a (by simp))
    simp only [seqCmp, List.headD_cons, List.tail_cons, ha, if_pos rfl]
    exact ih (tail_G hl)

theorem seqCmp_antisym {α : Type} {G : α → Prop} {f : α → α → Int} {d : α}
    (h : IsCmp G f) (hdG : G d) :
    ∀ la lb : List α, (∀ x ∈ la, G x) → (∀ x ∈ lb, G x) →
      seqCmp f d la lb = -(seqCmp f d lb la) := by
  have hdd : f d d = 0 := h.refl d hdG
  suffices H : ∀ n (la lb : List α), (∀ x ∈ la, G x) → (∀ x ∈ lb, G x) →
      la.length + lb.length ≤ n → seqCmp f d la lb = -(seqCmp f d lb la) by
    intro la lb hla hlb
    exact H (la.length + lb.length) la lb hla hlb (le_refl _)
  intro n
  induction n with
  | zero =>
    intro la lb hla hlb hlen
    have h1 : la = [] := by cases la <;> simp_all
    have h2 : lb = [] := by cases lb <;> simp_all
    subst h1; subst h2
    simp [seqCmp, seqCmpR]
  | succ n ih =>
    intro la lb hla hlb hlen
    by_cases hall : la = [] ∧ lb = []
    · obtain ⟨h1, h2⟩ := hall; subst h1; subst h2; simp [seqCmp, seqCmpR]
    · have ha : G (la.headD d) := headD_G hdG hla
      have hb : G (lb.headD d) := headD_G hdG hlb
      rw [seqCmp_step f d hdd la lb, seqCmp_step f d hdd lb la]
      have hab := h.antisym (la.headD d) (lb.headD d) ha hb
      have hlen' : la.tail.length + lb.tail.length ≤ n := by
        rcases la with _ | ⟨a, la⟩ <;> rcases lb with _ | ⟨b, lb⟩ <;>
          simp_all [List.length] <;> omega
      by_cases h0 : f (la.headD d) (lb.headD d) = 0
      · have h0' : f (lb.headD d) (la.headD d) = 0 := by omega
        rw [if_pos h0, if_pos h0']
        exact ih la.tail lb.tail (tail_G hla) (tail_G hlb) hlen'
      · have h0' : ¬ f (lb.headD d) (la.headD d) = 0 := by omega
        rw [if_neg h0, if_neg h0']
        omega

theorem seqCmp_range {α : Type} {G : α → Prop} {f : α → α → Int} {d : α}
    (h : IsCmp G f) (hdG : G d) :
    ∀ la lb : List α, (∀ x ∈ la, G x) → (∀ x ∈ lb, G x) →
      seqCmp f d la lb = -1 ∨ seqCmp f d la lb = 0 ∨ seqCmp f d la lb = 1 := by
  have hdd : f d d = 0 := h.refl d hdG
  suffices H : ∀ n (la lb : List α), (∀ x ∈ la, G x) → (∀ x ∈ lb, G x) →
      la.length + lb.length ≤ n →
      seqCmp f d la lb = -1 ∨ seqCmp f d la lb = 0 ∨ seqCmp f d la lb = 1 by
    intro la lb hla hlb
    exact H (la.length + lb.length) la lb hla hlb (le_refl _)
  intro n
  induction n with
  | zero =>
    intro la lb hla hlb hlen
    have h1 : la = [] := by cases la <;> simp_all
    have h2 : lb = [] := by cases lb <;> simp_all
    subst h1; subst h2
    simp [seqCmp, seqCmpR]
  | succ n ih =>
    intro la lb hla hlb hlen
    by_cases hall : la = [] ∧ lb = []
    · obtain ⟨h1, h2⟩ := hall; subst h1; subst h2; simp [seqCmp, seqCmpR]
    · have ha : G (la.headD d) := headD_G hdG hla
      have hb : G (lb.headD d) := headD_G hdG hlb
      rw [seqCmp_step f d hdd la lb]
      have hlen' : la.tail.length + lb.tail.length ≤ n := by
        rcases la with _ | ⟨a, la⟩ <;> rcases lb with _ | ⟨b, lb⟩ <;>
          simp_all [List.length] <;> omega
      by_cases h0 : f (la.headD d) (lb.headD d) = 0
      · rw [if_pos h0]
        exact ih la.tail lb.tail (tail_G hla) (tail_G hlb) hlen'
      · rw [if_neg h0]
        exact h.range _ _ ha hb

theorem seqCmp_le_trans {α : Type} {G : α → Prop} {f : α → α → Int} {d : α}
    (h : IsCmp G f) (hdG : G d) :
    ∀ n (la lb lc : List α), (∀ x ∈ la, G x) → (∀ x ∈ lb, G x) →
      (∀ x ∈ lc, G x) → la.length + lb.length + lc.length ≤ n →
      seqCmp f d la lb ≤ 0 → seqCmp f d lb lc ≤ 0 → seqCmp f d la lc ≤ 0 := by
  have hdd : f d d = 0 := h.refl d hdG
  intro n
  induction n with
  | zero =>
    intro la lb lc _ _ _ hlen
    have h1 : la = [] := by cases la <;> simp_all
    have h2 : lb = [] := by cases lb <;> (try rfl) <;> simp_all
    have h3 : lc = [] := by cases lc <;> (try rfl) <;> simp_all
    subst h1; subst h2; subst h3
    intro _ _
    simp [seqCmp, seqCmpR]
  | succ n ih =>
    intro la lb lc hla hlb hlc hlen hab hbc
    by_cases hall : la = [] ∧ lb = [] ∧ lc = []
    · obtain ⟨h1, h2, h3⟩ := hall; subst h1; subst h2; subst h3
      simp [seqCmp, seqCmpR]
    · have ha : G (la.headD d) := by
        cases la with
        | nil => exact hdG
        | cons a la => exact hla a (by simp)
      have hb : G (lb.headD d) := by
        cases lb with
        | nil => exact hdG
        | cons b lb => exact hlb b (by simp)
      have hc : G (lc.headD d) := by
        cases lc with
        | nil => exact hdG
        | cons c lc => exact hlc c (by simp)
      have hlaT : ∀ x ∈ la.tail, G x := by
        cases la with
        | nil => simp
        | cons a la => exact fun x hx => hla x (List.mem_cons_of_mem a hx)
      have hlbT : ∀ x ∈ lb.tail, G x := by
        cases lb with
        | nil => simp
        | cons b lb => exact fun x hx => hlb x (List.mem_cons_of_mem b hx)
      have hlcT : ∀ x ∈ lc.tail, G x := by
        cases lc with
        | nil => simp
        | cons c lc => exact fun x hx => hlc x (List.mem_cons_of_mem c hx)
      have hlen' : la.tail.length + lb.tail.length + lc.tail.length ≤ n := by
        rcases la with _ | ⟨a, la⟩ <;> rcases lb with _ | ⟨b, lb⟩ <;>
          rcases lc with _ | ⟨c, lc⟩ <;> simp_all [List.length] <;> omega
      rw [seqCmp_step f d hdd la lb] at hab
      rw [seqCmp_step f d hdd lb lc] at hbc
      rw [seqCmp_step f d hdd la lc]
      by_cases h1 : f (la.headD d) (lb.headD d) = 0
      · by_cases h2 : f (lb.headD d) (lc.headD d) = 0
        · have h3 : f (la.headD d) (lc.headD d) = 0 := h.zero_trans ha hb hc h1 h2
          rw [if_pos h1] at hab
          rw [if_pos h2] at hbc
          rw [if_pos h3]
          exact ih la.tail lb.tail lc.tail hlaT hlbT hlcT hlen' hab hbc
        · rw [if_neg h2] at hbc
          have h2' : f (lb.headD d) (lc.headD d) = -1 := by
            rcases h.range (lb.headD d) (lc.headD d) hb hc with h0 | h0 | h0 <;>
              omega
          have h3 : f (la.headD d) (lc.headD d) = -1 :=
            h.zero_neg_trans ha hb hc h1 h2'
          rw [if_neg (by omega), h3]
          omega
      · rw [if_neg h1] at hab
        have h1' : f (la.headD d) (lb.headD d) = -1 := by
          rcases h.range (la.headD d) (lb.headD d) ha hb with h0 | h0 | h0 <;>
            omega
        by_cases h2 : f (lb.headD d) (lc.headD d) = 0
        · have h3 : f (la.headD d) (lc.headD d) = -1 :=
            h.neg_zero_trans ha hb hc h1' h2
          rw [if_neg (by omega), h3]
          omega
        · rw [if_neg h2] at hbc
          have h2' : f (lb.headD d) (lc.headD d) = -1 := by
            rcases h.range (lb.headD d) (lc.headD d) hb hc with h0 | h0 | h0 <;>
              omega
          have h3 : f (la.headD d) (lc.headD d) = -1 :=
            h.neg_trans ha hb hc h1' h2'
          rw [if_neg (by omega), h3]
          omega

theorem seqCmp_isCmp {α : Type} {G : α → Prop} {f : α → α → Int} {d : α}
    (h : IsCmp G f) (hdG : G d) :
    IsCmp (fun l : List α => ∀ x ∈ l, G x) (seqCmp f d) := by
  constructor
  · exact seqCmp_refl h
  · exact seqCmp_antisym h hdG
  · exact seqCmp_range h hdG
  · intro la lb lc hla hlb hlc
    exact seqCmp_le_trans h hdG (la.length + lb.length + lc.length) la lb lc
      hla hlb hlc (le_refl _)

/-! ## version_compare (src/piss.py lines 87-140)

The Python code splits both version strings into maximal runs of digits
and non-digits (`RE_ALL_DIGITS_OR_NOT = \d+|\D+`), compares runs pairwise
padding with `"0"`; two digit runs compare as integers, any other pair is
compared character-by-character through `_order`, padding with the value
`0`.  A tie falls back to `cmp(a, b)`, plain string comparison. -/

/-- `\d` over ASCII. -/
def isDigitC (c : Char) : Bool := 48 ≤ c.toNat && c.toNat ≤ 57

/-- `[A-Za-z]` (regex `RE_ALPHA`). -/
def isAlphaC (c : Char) : Bool :=
  (65 ≤ c.toNat && c.toNat ≤ 90) || (97 ≤ c.toNat && c.toNat ≤ 122)

/-- `_order` in `version_compare`: `'~'` sorts before everything, a digit
becomes its value plus one, a letter its code point, anything else its
code point plus 256. -/
def order (c : Char) : Int :=
  if c = '~' then -1
  else if isDigitC c then (c.toNat : Int) - 47
  else if isAlphaC c then (c.toNat : Int)
  else (c.toNat : Int) + 256

/-- `_version_cmp_string`: compare the `_order` images, padding with 0. -/
def ocmp (la lb : List Int) : Int := seqCmp icmp 0 la lb

/-- `RE_DIGITS.match(run)` — true iff the run starts with a digit. -/
def startsDigit : List Char → Bool
  | [] => false
  | c :: _ => isDigitC c

/-- Python `int(...)` on an all-digit run. -/
def runToNat (l : List Char) : Nat :=
  l.foldl (fun n c => n * 10 + (c.toNat - 48)) 0

/-- One round of the loop in `_version_cmp_part`: two digit runs compare
as integers, any other pair through `_version_cmp_string`. -/
def runCmp (x y : List Char) : Int :=
  if startsDigit x && startsDigit y then
    icmp (runToNat x : Int) (runToNat y : Int)
  else ocmp (x.map order) (y.map order)

theorem dropWhile_length_le {α : Type} (p : α → Bool) :
    ∀ l : List α, (l.dropWhile p).length ≤ l.length := by
  intro l
  induction l with
  | nil => simp
  | cons a l ih =>
    rw [List.dropWhile_cons]
    by_cases h : p a
    · simp only [h, if_true, List.length_cons]
      omega
    · simp [h]

/-- `RE_ALL_DIGITS_OR_NOT.findall`: maximal runs of digits / non-digits.
Implemented with a length fuel so that it reduces in the kernel; each
round consumes at least one character, so `l.length` rounds suffice. -/
def splitRunsF : Nat → List Char → List (List Char)
  | _, [] => []
  | 0, _ => []
  | n + 1, c :: rest =>
    (c :: rest.takeWhile (fun x => isDigitC x == isDigitC c)) ::
      splitRunsF n (rest.dropWhile (fun x => isDigitC x == isDigitC c))

def splitRuns (l : List Char) : List (List Char) := splitRunsF l.length l

/-- `_version_cmp_part`: run-wise comparison, padding with the run `"0"`. -/
def partCmp (la lb : List (List Char)) : Int := seqCmp runCmp ['0'] la lb

/-- Python `cmp` on strings: lexicographic comparison by code point. -/
def strCmp : List Char → List Char → Int
  | [], [] => 0
  | [], _ :: _ => -1
  | _ :: _, [] => 1
  | a :: la, b :: lb => if a < b then -1 else if b < a then 1 else strCmp la lb

/-- `version_compare(a, b)` = `_version_cmp_part(a, b) or cmp(a, b)`. -/
def version_compare (a b : String) : Int :=
  if partCmp (splitRuns a.data) (splitRuns b.data) = 0 then
    strCmp a.data b.data
  else partCmp (splitRuns a.data) (splitRuns b.data)

theorem order_digit {c : Char} (h : isDigitC c = true) :
    1 ≤ order c ∧ order c ≤ 10 := by
  simp only [isDigitC, Bool.and_eq_true, decide_eq_true_eq] at h
  unfold order
  split_ifs with h1 h2 h3
  · subst h1; simp at h
  · omega
  · simp [isDigitC, h.1, h.2] at h2
  · simp [isDigitC, h.1, h.2] at h2

theorem order_nondigit {c : Char} (h : isDigitC c = false) :
    order c = -1 ∨ 65 ≤ order c := by
  unfold order
  split_ifs with h1 h2 h3
  · left; rfl
  · rw [h] at h2; exact absurd h2 (by simp)
  · right
    simp only [isAlphaC, Bool.or_eq_true, Bool.and_eq_true,
      decide_eq_true_eq] at h3
    omega
  · right; omega

theorem ocmp_cons {a b : Int} (la lb : List Int) (h : icmp a b ≠ 0) :
    ocmp (a :: la) (b :: lb) = icmp a b := by
  simp [ocmp, seqCmp, h]

theorem ocmp_refl (l : List Int) : ocmp l l = 0 :=
  seqCmp_refl icmp_isCmp l (by simp)

theorem ocmp_antisym (la lb : List Int) : ocmp la lb = -(ocmp lb la) :=
  seqCmp_antisym icmp_isCmp trivial la lb (by simp) (by simp)

theorem ocmp_range (la lb : List Int) :
    ocmp la lb = -1 ∨ ocmp la lb = 0 ∨ ocmp la lb = 1 :=
  seqCmp_range icmp_isCmp trivial la lb (by simp) (by simp)

theorem ocmp_le_trans (la lb lc : List Int) (h1 : ocmp la lb ≤ 0)
    (h2 : ocmp lb lc ≤ 0) : ocmp la lc ≤ 0 :=
  seqCmp_le_trans icmp_isCmp trivial (la.length + lb.length + lc.length)
    la lb lc (by simp) (by simp) (by simp) (le_refl _) h1 h2

theorem head_digit {x : List Char} (hx : x ≠ []) (dx : startsDigit x = true) :
    isDigitC (x.headD '0') = true := by
  cases x with
  | nil => exact absurd rfl hx
  | cons c t => simpa [startsDigit] using dx

theorem head_nondigit {x : List Char} (hx : x ≠ [])
    (dx : startsDigit x = false) : isDigitC (x.headD '0') = false := by
  cases x with
  | nil => exact absurd rfl hx
  | cons c t => simpa [startsDigit] using dx

theorem ocmp_head {x y : List Char} (hx : x ≠ []) (hy : y ≠ [])
    (h : icmp (order (x.headD '0')) (order (y.headD '0')) ≠ 0) :
    ocmp (x.map order) (y.map order) =
      icmp (order (x.headD '0')) (order (y.headD '0')) := by
  cases x with
  | nil => exact absurd rfl hx
  | cons a ta =>
    cases y with
    | nil => exact absurd rfl hy
    | cons b tb =>
      simp only [List.map_cons, List.headD_cons] at h ⊢
      exact ocmp_cons _ _ h

theorem icmp_eq_neg_one {a b : Int} (h : a < b) : icmp a b = -1 := by
  unfold icmp
  split_ifs <;> omega

theorem icmp_eq_one {a b : Int} (h : b < a) : icmp a b = 1 := by
  unfold icmp
  split_ifs <;> omega

theorem runCmp_isCmp : IsCmp (fun r : List Char => r ≠ []) runCmp := by
  constructor
  · intro x _
    unfold runCmp
    split_ifs with h
    · simp [icmp]
    · exact ocmp_refl _
  · intro x y _ _
    by_cases dx : startsDigit x <;> by_cases dy : startsDigit y <;>
      simp only [runCmp, dx, dy, Bool.true_and, Bool.false_and, Bool.and_true,
        Bool.and_false, Bool.false_eq_true, if_true, if_false, Bool.and_self]
    · unfold icmp; split_ifs <;> omega
    all_goals exact ocmp_antisym _ _
  · intro x y _ _
    by_cases dx : startsDigit x <;> by_cases dy : startsDigit y <;>
      simp only [runCmp, dx, dy, Bool.true_and, Bool.false_and, Bool.and_true,
        Bool.and_false, Bool.false_eq_true, if_true, if_false, Bool.and_self]
    · unfold icmp; split_ifs <;> simp
    all_goals exact ocmp_range _ _
  · intro x y z hx hy hz hxy hyz
    by_cases dx : startsDigit x = true <;> by_cases dy : startsDigit y = true <;>
      by_cases dz : startsDigit z = true <;>
      (try simp only [Bool.not_eq_true] at dx) <;>
      (try simp only [Bool.not_eq_true] at dy) <;>
      (try simp only [Bool.not_eq_true] at dz) <;>
      simp only [runCmp, dx, dy, dz, Bool.true_and, Bool.false_and,
        Bool.and_true, Bool.and_false, Bool.false_eq_true, if_true, if_false,
        Bool.and_self] at hxy hyz ⊢
    · -- digit, digit, digit
      exact icmp_isCmp.le_trans _ _ _ trivial trivial trivial hxy hyz
    · -- digit, digit, nondigit
      have hox := order_digit (head_digit hx dx)
      have hoy := order_digit (head_digit hy dy)
      have hoz := order_nondigit (head_nondigit hz dz)
      have hoz65 : 65 ≤ order (z.headD '0') := by
        rcases hoz with h | h
        · exfalso
          have hv : icmp (order (y.headD '0')) (order (z.headD '0')) = 1 :=
            icmp_eq_one (by omega)
          rw [ocmp_head hy hz (by omega)] at hyz
          omega
        · exact h
      have hv2 : icmp (order (x.headD '0')) (order (z.headD '0')) = -1 :=
        icmp_eq_neg_one (by omega)
      rw [ocmp_head hx hz (by omega)]
      omega
    · -- digit, nondigit, digit: impossible
      exfalso
      have hox := order_digit (head_digit hx dx)
      have hoy := order_nondigit (head_nondigit hy dy)
      have hoz := order_digit (head_digit hz dz)
      have hoy65 : 65 ≤ order (y.headD '0') := by
        rcases hoy with h | h
        · exfalso
          have hv : icmp (order (x.headD '0')) (order (y.headD '0')) = 1 :=
            icmp_eq_one (by omega)
          rw [ocmp_head hx hy (by omega)] at hxy
          omega
        · exact h
      have hv2 : icmp (order (y.headD '0')) (order (z.headD '0')) = 1 :=
        icmp_eq_one (by omega)
      rw [ocmp_head hy hz (by omega)] at hyz
      omega
    · -- digit, nondigit, nondigit
      have hox := order_digit (head_digit hx dx)
      have hoy := order_nondigit (head_nondigit hy dy)
      have hoz := order_nondigit (head_nondigit hz dz)
      have hoy65 : 65 ≤ order (y.headD '0') := by
        rcases hoy with h | h
        · exfalso
          have hv : icmp (order (x.headD '0')) (order (y.headD '0')) = 1 :=
            icmp_eq_one (by omega)
          rw [ocmp_head hx hy (by omega)] at hxy
          omega
        · exact h
      have hoz65 : 65 ≤ order (z.headD '0') := by
        rcases hoz with h | h
        · exfalso
          have hv : icmp (order (y.headD '0')) (order (z.headD '0')) = 1 :=
            icmp_eq_one (by omega)
          rw [ocmp_head hy hz (by omega)] at hyz
          omega
        · exact h
      have hv2 : icmp (order (x.headD '0')) (order (z.headD '0')) = -1 :=
        icmp_eq_neg_one (by omega)
      rw [ocmp_head hx hz (by omega)]
      omega
    · -- nondigit, digit, digit
      have hox := order_nondigit (head_nondigit hx dx)
      have hoy := order_digit (head_digit hy dy)
      have hoz := order_digit (head_digit hz dz)
      have hoxneg : order (x.headD '0') = -1 := by
        rcases hox with h | h
        · exact h
        · exfalso
          have hv : icmp (order (x.headD '0')) (order (y.headD '0')) = 1 :=
            icmp_eq_one (by omega)
          rw [ocmp_head hx hy (by omega)] at hxy
          omega
      have hv2 : icmp (order (x.headD '0')) (order (z.headD '0')) = -1 :=
        icmp_eq_neg_one (by omega)
      rw [ocmp_head hx hz (by omega)]
      omega
    · -- nondigit, digit, nondigit
      have hox := order_nondigit (head_nondigit hx dx)
      have hoy := order_digit (head_digit hy dy)
      have hoz := order_nondigit (head_nondigit hz dz)
      have hoxneg : order (x.headD '0') = -1 := by
        rcases hox with h | h
        · exact h
        · exfalso
          have hv : icmp (order (x.headD '0')) (order (y.headD '0')) = 1 :=
            icmp_eq_one (by omega)
          rw [ocmp_head hx hy (by omega)] at hxy
          omega
      have hoz65 : 65 ≤ order (z.headD '0') := by
        rcases hoz with h | h
        · exfalso
          have hv : icmp (order (y.headD '0')) (order (z.headD '0')) = 1 :=
            icmp_eq_one (by omega)
          rw [ocmp_head hy hz (by omega)] at hyz
          omega
        · exact h
      have hv2 : icmp (order (x.headD '0')) (order (z.headD '0')) = -1 :=
        icmp_eq_neg_one (by omega)
      rw [ocmp_head hx hz (by omega)]
      omega
    · -- nondigit, nondigit, digit
      have hox := order_nondigit (head_nondigit hx dx)
      have hoy := order_nondigit (head_nondigit hy dy)
      have hoz := order_digit (head_digit hz dz)
      have hoyneg : order (y.headD '0') = -1 := by
        rcases hoy with h | h
        · exact h
        · exfalso
          have hv : icmp (order (y.headD '0')) (order (z.headD '0')) = 1 :=
            icmp_eq_one (by omega)
          rw [ocmp_head hy hz (by omega)] at hyz
          omega
      have hoxneg : order (x.headD '0') = -1 := by
        rcases hox with h | h
        · exact h
        · exfalso
          have hv : icmp (order (x.headD '0')) (order (y.headD '0')) = 1 :=
            icmp_eq_one (by omega)
          rw [ocmp_head hx hy (by omega)] at hxy
          omega
      have hv2 : icmp (order (x.headD '0')) (order (z.headD '0')) = -1 :=
        icmp_eq_neg_one (by omega)
      rw [ocmp_head hx hz (by omega)]
      omega
    · -- nondigit, nondigit, nondigit
      exact ocmp_le_trans _ _ _ hxy hyz

theorem splitRunsF_ne_nil :
    ∀ (n : Nat) (l : List Char), ∀ r ∈ splitRunsF n l, r ≠ [] := by
  intro n
  induction n with
  | zero =>
    intro l r hr
    cases l <;> simp [splitRunsF] at hr
  | succ n ih =>
    intro l r hr
    cases l with
    | nil => simp [splitRunsF] at hr
    | cons c rest =>
      simp only [splitRunsF] at hr
      rcases List.mem_cons.mp hr with h | h
      · subst h; simp
      · exact ih _ r h

theorem splitRuns_runs (l : List Char) : ∀ r ∈ splitRuns l, r ≠ [] :=
  splitRunsF_ne_nil l.length l

theorem partCmp_isCmp :
    IsCmp (fun l : List (List Char) => ∀ r ∈ l, r ≠ []) partCmp :=
  seqCmp_isCmp runCmp_isCmp (by simp)

theorem strCmp_refl : ∀ l : List Char, strCmp l l = 0 := by
  intro l
  induction l with
  | nil => simp [strCmp]
  | cons a la ih => simpa [strCmp, lt_irrefl] using ih

theorem strCmp_antisym :
    ∀ la lb : List Char, strCmp la lb = -(strCmp lb la) := by
  intro la
  induction la with
  | nil => intro lb; cases lb <;> simp [strCmp]
  | cons a la ih =>
    intro lb
    cases lb with
    | nil => simp [strCmp]
    | cons b lb =>
      rcases lt_trichotomy a b with h | h | h
      · simp [strCmp, h, lt_asymm h]
      · subst h; simpa [strCmp, lt_irrefl] using ih lb
      · simp [strCmp, h, lt_asymm h]

theorem strCmp_range : ∀ la lb : List Char,
    strCmp la lb = -1 ∨ strCmp la lb = 0 ∨ strCmp la lb = 1 := by
  intro la
  induction la with
  | nil => intro lb; cases lb <;> simp [strCmp]
  | cons a la ih =>
    intro lb
    cases lb with
    | nil => simp [strCmp]
    | cons b lb =>
      rcases lt_trichotomy a b with h | h | h
      · simp [strCmp, h]
      · subst h; simpa [strCmp, lt_irrefl] using ih lb
      · simp [strCmp, h, lt_asymm h]

theorem strCmp_le_trans : ∀ la lb lc : List Char,
    strCmp la lb ≤ 0 → strCmp lb lc ≤ 0 → strCmp la lc ≤ 0 := by
  intro la
  induction la with
  | nil =>
    intro lb lc _ _
    cases lc <;> simp [strCmp]
  | cons a la ih =>
    intro lb lc hab hbc
    cases lb with
    | nil => exfalso; simp [strCmp] at hab
    | cons b lb =>
      cases lc with
      | nil => exfalso; simp [strCmp] at hbc
      | cons c lc =>
        simp only [strCmp] at hab hbc ⊢
        rcases lt_trichotomy a b with h1 | h1 | h1
        · rcases lt_trichotomy b c with h2 | h2 | h2
          · simp [lt_trans h1 h2]
          · subst h2; simp [h1]
          · exfalso
            rw [if_neg (lt_asymm h2), if_pos h2] at hbc
            omega
        · subst h1
          rw [if_neg (lt_irrefl a), if_neg (lt_irrefl a)] at hab
          rcases lt_trichotomy a c with h2 | h2 | h2
          · simp [h2]
          · subst h2
            rw [if_neg (lt_irrefl a), if_neg (lt_irrefl a)] at hbc ⊢
            exact ih lb lc hab hbc
          · exfalso
            rw [if_neg (lt_asymm h2), if_pos h2] at hbc
            omega
        · exfalso
          rw [if_neg (lt_asymm h1), if_pos h1] at hab
          omega

theorem version_compare_refl (a : String) : version_compare a a = 0 := by
  unfold version_compare
  rw [if_pos (partCmp_isCmp.refl _ (splitRuns_runs a.data))]
  exact strCmp_refl a.data

theorem version_compare_antisym (a b : String) :
    version_compare a b = -(version_compare b a) := by
  unfold version_compare
  have hA := splitRuns_runs a.data
  have hB := splitRuns_runs b.data
  have h := partCmp_isCmp.antisym _ _ hA hB
  by_cases h0 : partCmp (splitRuns a.data) (splitRuns b.data) = 0
  · rw [if_pos h0, if_pos (by omega)]
    exact strCmp_antisym a.data b.data
  · rw [if_neg h0, if_neg (by omega)]
    omega

theorem version_compare_range (a b : String) :
    version_compare a b = -1 ∨ version_compare a b = 0 ∨
      version_compare a b = 1 := by
  unfold version_compare
  have hA := splitRuns_runs a.data
  have hB := splitRuns_runs b.data
  by_cases h0 : partCmp (splitRuns a.data) (splitRuns b.data) = 0
  · rw [if_pos h0]
    exact strCmp_range a.data b.data
  · rw [if_neg h0]
    rcases partCmp_isCmp.range _ _ hA hB with h | h | h
    · simp [h]
    · exact absurd h h0
    · simp [h]

theorem version_compare_le_trans (a b c : String)
    (hab : version_compare a b ≤ 0) (hbc : version_compare b c ≤ 0) :
    version_compare a c ≤ 0 := by
  unfold version_compare at hab hbc ⊢
  have hA := splitRuns_runs a.data
  have hB := splitRuns_runs b.data
  have hC := splitRuns_runs c.data
  by_cases h1 : partCmp (splitRuns a.data) (splitRuns b.data) = 0
  · by_cases h2 : partCmp (splitRuns b.data) (splitRuns c.data) = 0
    · have h3 : partCmp (splitRuns a.data) (splitRuns c.data) = 0 :=
        partCmp_isCmp.zero_trans hA hB hC h1 h2
      rw [if_pos h1] at hab
      rw [if_pos h2] at hbc
      rw [if_pos h3]
      exact strCmp_le_trans a.data b.data c.data hab hbc
    · rw [if_neg h2] at hbc
      have h2' : partCmp (splitRuns b.data) (splitRuns c.data) = -1 := by
        rcases partCmp_isCmp.range _ _ hB hC with h | h | h <;> omega
      have h3 : partCmp (splitRuns a.data) (splitRuns c.data) = -1 :=
        partCmp_isCmp.zero_neg_trans hA hB hC h1 h2'
      rw [if_neg (by omega), h3]
      omega
  · rw [if_neg h1] at hab
    have h1' : partCmp (splitRuns a.data) (splitRuns b.data) = -1 := by
      rcases partCmp_isCmp.range _ _ hA hB with h | h | h <;> omega
    by_cases h2 : partCmp (splitRuns b.data) (splitRuns c.data) = 0
    · have h3 : partCmp (splitRuns a.data) (splitRuns c.data) = -1 :=
        partCmp_isCmp.neg_zero_trans hA hB hC h1' h2
      rw [if_neg (by omega), h3]
      omega
    · rw [if_neg h2] at hbc
      have h2' : partCmp (splitRuns b.data) (splitRuns c.data) = -1 := by
        rcases partCmp_isCmp.range _ _ hB hC with h | h | h <;> omega
      have h3 : partCmp (splitRuns a.data) (splitRuns c.data) = -1 :=
        partCmp_isCmp.neg_trans hA hB hC h1' h2'
      rw [if_neg (by omega), h3]
      omega

/-- **C1.** `version_compare` is a comparison function returning -1, 0 or
+1 such that for all strings `a`, `b`, `c`: `cmp(a,a) = 0`,
`cmp(a,b) = -cmp(b,a)`, the induced order is transitive (stated as: the
relation `cmp(a,b) ≤ 0` is transitive), and on the literal inputs
`cmp("1.0~rc1","1.0") = -1`, `cmp("1.10","1.2") = +1` and
`cmp("1.0","1.0-1") = -1`. -/
theorem c1_version_compare_properties :
    (∀ a b : String, version_compare a b = -1 ∨ version_compare a b = 0 ∨
      version_compare a b = 1) ∧
    (∀ a : String, version_compare a a = 0) ∧
    (∀ a b : String, version_compare a b = -(version_compare b a)) ∧
    (∀ a b c : String, version_compare a b ≤ 0 → version_compare b c ≤ 0 →
      version_compare a c ≤ 0) ∧
    version_compare "1.0~rc1" "1.0" = -1 ∧
    version_compare "1.10" "1.2" = 1 ∧
    version_compare "1.0" "1.0-1" = -1 :=
  ⟨version_compare_range, version_compare_refl, version_compare_antisym,
    version_compare_le_trans, by decide, by decide, by decide⟩

/-- Witness for C1: the transitivity component applied at concrete
inputs. -/
theorem c1_version_compare_properties_witness :
    version_compare "1.0" "1.2" ≤ 0 :=
  c1_version_compare_properties.2.2.2.1 "1.0" "1.1" "1.2"
    (by decide) (by decide)

/-! ## Release version normalization (src/piss.py lines 72-79)

`Release.__new__` normalizes the version: strip one leading match of
`RE_VER_PREFIX` = `^(?:version|ver|v|releases|release|rel|r)` plus an
optional separator out of dot, underscore, slash, hyphen (case-insensitive), strip one leading `^<package>[._-]` (case-sensitive),
and if no dot remains replace every underscore by a dot. -/

/-- ASCII lower-casing, the effect of `re.I` on `[A-Za-z]`. -/
def toLowerC (c : Char) : Char :=
  if 65 ≤ c.toNat && c.toNat ≤ 90 then Char.ofNat (c.toNat + 32) else c

/-- Case-insensitive "`s` starts with pattern `p`". -/
def ciStartsWith : List Char → List Char → Bool
  | [], _ => true
  | _ :: _, [] => false
  | p :: ps, c :: cs => (toLowerC c == toLowerC p) && ciStartsWith ps cs

/-- Case-sensitive "`s` starts with pattern `p`". -/
def startsWithL : List Char → List Char → Bool
  | [], _ => true
  | _ :: _, [] => false
  | p :: ps, c :: cs => (c == p) && startsWithL ps cs

/-- The alternatives of `RE_VER_PREFIX`, in the order Python tries them. -/
def verPrefixAlts : List (List Char) :=
  ["version".data, "ver".data, "v".data, "releases".data, "release".data,
   "rel".data, "r".data]

def verPrefixSeps : List Char := ['.', '_', '/', '-']

/-- `RE_VER_PREFIX.sub('', s)`: remove one leading version word (first
matching alternative) plus at most one following separator. -/
def stripVerPrefixL (s : List Char) : List Char :=
  match verPrefixAlts.find? (fun p => ciStartsWith p s) with
  | none => s
  | some p =>
    match s.drop p.length with
    | c :: rest => if c ∈ verPrefixSeps then rest else c :: rest
    | [] => []

def pkgSeps : List Char := ['.', '_', '-']

/-- `re.sub('^' + re.escape(package) + '[._-]', '', s)`: remove a leading
`<package>` plus one mandatory separator (case-sensitive). -/
def stripPkgL (pkg s : List Char) : List Char :=
  if startsWithL pkg s then
    match s.drop pkg.length with
    | c :: rest => if c ∈ pkgSeps then rest else s
    | [] => s
  else s

/-- The version normalization done by `Release.__new__`. -/
def releaseNormL (pkg v : List Char) : List Char :=
  if '.' ∈ stripPkgL pkg (stripVerPrefixL v) then
    stripPkgL pkg (stripVerPrefixL v)
  else (stripPkgL pkg (stripVerPrefixL v)).map
    (fun c => if c = '_' then '.' else c)

/-- `Release(package, t, version, u, url).version`. -/
def release_version (package version : String) : String :=
  ⟨releaseNormL package.data version.data⟩

theorem underscore_not_mem_map (l : List Char) :
    '_' ∉ l.map (fun c => if c = '_' then '.' else c) := by
  intro h
  rcases List.mem_map.mp h with ⟨c, _, hc⟩
  by_cases h0 : c = '_' <;> simp [h0] at hc

theorem releaseNormL_dot_or_no_underscore (pkg v : List Char) :
    '.' ∈ releaseNormL pkg v ∨ '_' ∉ releaseNormL pkg v := by
  unfold releaseNormL
  by_cases h : '.' ∈ stripPkgL pkg (stripVerPrefixL v)
  · left
    rw [if_pos h]
    exact h
  · right
    simp only [h, if_false]
    exact underscore_not_mem_map _

theorem map_underscore_id {l : List Char} (h : '_' ∉ l) :
    l.map (fun c => if c = '_' then '.' else c) = l := by
  induction l with
  | nil => rfl
  | cons c cs ih =>
    have hc : c ≠ '_' := by intro h0; exact h (by simp [h0])
    have hcs : '_' ∉ cs := fun h0 => h (List.mem_cons_of_mem c h0)
    simp [hc, ih hcs]

/-- **C2 counterexample.**  Release version normalization is not
idempotent: for package `"foo"` and version `"vv1"` the constructor
produces `"v1"`, and constructing a Release from that version strips a
second `v`, producing `"1"`. -/
theorem c2_release_norm_not_idempotent :
    release_version "foo" (release_version "foo" "vv1") ≠
      release_version "foo" "vv1" ∧
    release_version "foo" "vv1" = "v1" ∧
    release_version "foo" (release_version "foo" "vv1") = "1" := by
  refine ⟨?_, by decide, by decide⟩
  decide

/-- **C2 (amended).**  Release version normalization is idempotent
whenever the normalized version itself neither begins with a version
prefix (`RE_VER_PREFIX`) nor with `<package>[._-]` — that is, whenever
the two stripping passes leave the normalized version unchanged.  (The
underscore step is idempotent unconditionally.) -/
theorem c2_release_norm_idempotent_of_stable (p v : String)
    (h1 : stripVerPrefixL (release_version p v).data =
      (release_version p v).data)
    (h2 : stripPkgL p.data (release_version p v).data =
      (release_version p v).data) :
    release_version p (release_version p v) = release_version p v := by
  have hdata : (release_version p v).data = releaseNormL p.data v.data := rfl
  rw [hdata] at h1 h2
  show (⟨releaseNormL p.data (releaseNormL p.data v.data)⟩ : String) =
    ⟨releaseNormL p.data v.data⟩
  congr 1
  rw [releaseNormL, h1, h2]
  rcases releaseNormL_dot_or_no_underscore p.data v.data with h | h
  · rw [if_pos h]
  · by_cases hdot : '.' ∈ releaseNormL p.data v.data
    · rw [if_pos hdot]
    · rw [if_neg hdot, map_underscore_id h]

/-- Witness for C2 (amended): at package `"foo"`, version `"1.0"` both
stability hypotheses hold and normalization is idempotent. -/
theorem c2_release_norm_idempotent_of_stable_witness :
    release_version "foo" (release_version "foo" "1.0") =
      release_version "foo" "1.0" :=
  c2_release_norm_idempotent_of_stable "foo" "1.0" (by decide) (by decide)

/-! ## check_updates backoff (src/piss.py lines 609-616)

The delayed set is computed by one SQL predicate:
`(last_try + 86400*3 > now AND (err = 'not found' OR err LIKE 'HTTPError%'))
OR last_try + 7200 > now`.  A row with NULL `last_try` never satisfies the
predicate; a NULL `err` makes the first disjunct NULL (not true).  SQLite
`LIKE` is case-insensitive over ASCII. -/

def errLikeHTTPError (e : List Char) : Bool := ciStartsWith "httperror".data e

def errIsFailure (err : Option String) : Bool :=
  match err with
  | none => false
  | some e => (e == "not found") || errLikeHTTPError e.data

/-- Membership of a package row in the `delayed` set of `check_updates`. -/
def isDelayed (err : Option String) (lastTry : Option Int) (now : Int) :
    Bool :=
  match lastTry with
  | none => false
  | some lt =>
    (decide (lt + 86400 * 3 > now) && errIsFailure err) ||
      decide (lt + 7200 > now)

/-- **C5 counterexample.**  The claim says a package with null `err` is
polled again iff `now > last_try + 7200`; but at `now = last_try + 7200`
exactly, the SQL predicate `last_try + 7200 > now` is false, so the code
polls the package while the claimed condition fails. -/
theorem c5_backoff_boundary_counterexample :
    isDelayed none (some 999992800) 1000000000 = false ∧
    ¬(1000000000 > 999992800 + 7200) := by decide

/-- **C5 (amended).**  `check_updates` skips exactly the delayed packages,
with non-strict retry thresholds: a package with null `err` is polled
again iff `now ≥ last_try + 7200`; a package whose `err` is
`'not found'` or starts with `'HTTPError'` is polled again iff
`now ≥ last_try + 3*86400` and `now ≥ last_try + 7200`.  In particular
`err = 'not found'` with `last_try = now - 2` days is skipped, and with
`last_try = now - 4` days is retried. -/
theorem c5_backoff (lt now : Int) :
    (isDelayed none (some lt) now = false ↔ now ≥ lt + 7200) ∧
    (∀ e, errIsFailure e = true →
      (isDelayed e (some lt) now = false ↔
        now ≥ lt + 3 * 86400 ∧ now ≥ lt + 7200)) ∧
    errIsFailure (some "not found") = true ∧
    isDelayed (some "not found") (some (now - 2 * 86400)) now = true ∧
    isDelayed (some "not found") (some (now - 4 * 86400)) now = false := by
  refine ⟨?_, ?_, by decide, ?_, ?_⟩
  · simp [isDelayed, errIsFailure]
    try omega
  · intro e he
    simp [isDelayed, he]
    try omega
  · simp [isDelayed, errIsFailure]
    try omega
  · simp [isDelayed, errIsFailure]
    try omega

/-- Witness for C5 (amended): the failing-package component applied at a
concrete `HTTPError` row. -/
theorem c5_backoff_witness :
    isDelayed (some "HTTPError 404") (some 1000) 300000 = false ↔
      (300000 : Int) ≥ 1000 + 3 * 86400 ∧ (300000 : Int) ≥ 1000 + 7200 :=
  (c5_backoff 1000 300000).2.1 (some "HTTPError 404") (by decide)

/-! ## upstream_status rows and the missing-upstream UPDATE
(src/piss.py lines 555-573 and 618-627) -/

structure StatusRow where
  package : String
  updated : Option Int
  last_try : Option Int
  err : Option String
deriving DecidableEq

/-- SQLite `=` on nullable text: NULL if either side is NULL. -/
def sqlEqText : Option String → Option String → Option Int
  | none, _ => none
  | _, none => none
  | some a, some b => some (if a = b then 1 else 0)

/-- SQLite `AND` on nullable values (0 is false, anything nonzero true):
false dominates NULL. -/
def sqlAnd (x y : Option Int) : Option Int :=
  match x, y with
  | some a, some b => some (if a ≠ 0 ∧ b ≠ 0 then 1 else 0)
  | some a, none => if a = 0 then some 0 else none
  | none, some b => if b = 0 then some 0 else none
  | none, none => none

/-- The string `can't detect upstream` (built with an explicit quote
character). -/
def cantDetectMsg : String :=
  "can" ++ (Char.ofNat 39).toString ++ "t detect upstream"

/-- Row created by `INSERT OR IGNORE INTO upstream_status(package)` for a
package not yet present: every other column is NULL. -/
def freshStatusRow (name : String) : StatusRow := ⟨name, none, none, none⟩

/-- The UPDATE run when `detect_upstream` returns `None`:
`UPDATE upstream_status SET last_try=? AND err=? WHERE package=?` with
parameters `(fetch_time, "can't detect upstream", name)`.  SQLite parses
the SET clause as the single assignment
`last_try = (fetch_time AND (err = 'can''t detect upstream'))`; `err` is
never assigned. -/
def missUpdate (fetchTime : Int) (row : StatusRow) : StatusRow :=
  { row with
    last_try := sqlAnd (some fetchTime)
      (sqlEqText row.err (some cantDetectMsg)) }

/-! ## human2bytes (src/chores.py lines 80-98, src/piss/chores.py 86-104)

`human2bytes` first tries `int(s)`; on `ValueError` it takes the last
character (stripped, upper-cased) as a binary-power suffix out of
`BKMGTPEZY` and multiplies `float(s[:-1])` by it.  The code inside the
`except` clause is not protected: `float` can raise `ValueError` and the
dict lookup can raise `KeyError`, and both propagate to the caller.
Python floats are modelled as exact (unnormalized) fractions plus
`inf`/`nan` markers: only parse success, sign and small exact values
matter to the claims. -/

def isSpaceC (c : Char) : Bool :=
  c = ' ' || c = Char.ofNat 9 || c = Char.ofNat 10 || c = Char.ofNat 13 ||
    c = Char.ofNat 11 || c = Char.ofNat 12

def stripWs (l : List Char) : List Char :=
  ((l.dropWhile isSpaceC).reverse.dropWhile isSpaceC).reverse

/-- Rest of a digit group in which single underscores may separate
digits. -/
def underDigitsRest : List Char → Bool
  | [] => true
  | ['_'] => false
  | '_' :: d :: r => isDigitC d && underDigitsRest r
  | d :: r => isDigitC d && underDigitsRest r

/-- A valid Python digit group: nonempty digits with optional single
underscores between digits. -/
def validUnderDigits : List Char → Bool
  | [] => false
  | c :: rest => isDigitC c && underDigitsRest rest

def digitsVal (l : List Char) : Nat :=
  l.foldl (fun n c => n * 10 + (c.toNat - 48)) 0

/-- Python `int(s)` for a string argument (base 10). -/
def pyIntOfString (s : String) : Option Int :=
  let t := stripWs s.data
  match t with
  | '+' :: rest =>
    if validUnderDigits rest then
      some (digitsVal (rest.filter (fun c => c ≠ '_')) : Int)
    else none
  | '-' :: rest =>
    if validUnderDigits rest then
      some (-(digitsVal (rest.filter (fun c => c ≠ '_')) : Int))
    else none
  | rest =>
    if validUnderDigits rest then
      some (digitsVal (rest.filter (fun c => c ≠ '_')) : Int)
    else none

/-- An exact fraction (denominator a positive power of ten by
construction); kept unnormalized so that it reduces in the kernel. -/
structure PyQ where
  num : Int
  den : Nat
deriving DecidableEq

inductive PyFloat where
  | num (q : PyQ)
  | inf
  | ninf
  | nan
deriving DecidableEq

def splitAtFirst (p : Char → Bool) : List Char → List Char × Option (List Char)
  | [] => ([], none)
  | c :: r =>
    if p c then ([], some r)
    else
      let (a, b) := splitAtFirst p r
      (c :: a, b)

/-- Python `float(s)` for a string argument. -/
def pyFloatOfString (s : String) : Option PyFloat :=
  let t := stripWs s.data
  let sgnNeg : Bool := t.head? = some '-'
  let body := match t with
    | '+' :: r => r
    | '-' :: r => r
    | r => r
  let lbody := body.map toLowerC
  if lbody = "inf".data ∨ lbody = "infinity".data then
    some (if sgnNeg then PyFloat.ninf else PyFloat.inf)
  else if lbody = "nan".data then some PyFloat.nan
  else
    let me := splitAtFirst (fun c => c = 'e' || c = 'E') body
    let mf := splitAtFirst (fun c => c = '.') me.1
    let ipart := mf.1
    let idigits := ipart.filter (fun c => c ≠ '_')
    let fdigits := (mf.2.getD []).filter (fun c => c ≠ '_')
    let iok : Bool := ipart.isEmpty || validUnderDigits ipart
    let fok : Bool := match mf.2 with
      | none => true
      | some f => f.isEmpty || validUnderDigits f
    let hasDigit : Bool := !idigits.isEmpty || !fdigits.isEmpty
    let expVal : Option Int := match me.2 with
      | none => some 0
      | some e =>
        let esgnNeg : Bool := e.head? = some '-'
        let ebody := match e with
          | '+' :: r => r
          | '-' :: r => r
          | r => r
        if validUnderDigits ebody then
          let v : Int := digitsVal (ebody.filter (fun c => c ≠ '_'))
          some (if esgnNeg then -v else v)
        else none
    match expVal with
    | none => none
    | some ev =>
      if iok && fok && hasDigit then
        let baseNum : Int :=
          (digitsVal idigits : Int) * (10 : Int) ^ fdigits.length +
            (digitsVal fdigits : Int)
        let baseDen : Nat := 10 ^ fdigits.length
        let scaled : Int × Nat :=
          if 0 ≤ ev then (baseNum * (10 : Int) ^ ev.toNat, baseDen)
          else (baseNum, baseDen * 10 ^ (-ev).toNat)
        some (PyFloat.num
          ⟨if sgnNeg then -scaled.1 else scaled.1, scaled.2⟩)
      else none

instance {ε α : Type} [DecidableEq ε] [DecidableEq α] :
    DecidableEq (Except ε α) := fun a b =>
  match a, b with
  | .ok x, .ok y =>
    if h : x = y then isTrue (by rw [h])
    else isFalse (by intro hh; cases hh; exact h rfl)
  | .error x, .error y =>
    if h : x = y then isTrue (by rw [h])
    else isFalse (by intro hh; cases hh; exact h rfl)
  | .ok _, .error _ => isFalse (by intro hh; cases hh)
  | .error _, .ok _ => isFalse (by intro hh; cases hh)

inductive PyExn where
  | valueError
  | keyError
  | overflowError
deriving DecidableEq

def toUpperC (c : Char) : Char :=
  if 97 ≤ c.toNat && c.toNat ≤ 122 then Char.ofNat (c.toNat - 32) else c

/-- `s[-1:]` as a character list (empty for the empty string). -/
def lastCharL (l : List Char) : List Char :=
  match l.getLast? with
  | none => []
  | some c => [c]

/-- The `prefix` dict of `human2bytes`: `{B:1, K:2^10, ..., Y:2^80}`. -/
def suffixMult (c : Char) : Option Int :=
  if c = 'B' then some 1
  else if c = 'K' then some (2 ^ 10)
  else if c = 'M' then some (2 ^ 20)
  else if c = 'G' then some (2 ^ 30)
  else if c = 'T' then some (2 ^ 40)
  else if c = 'P' then some (2 ^ 50)
  else if c = 'E' then some (2 ^ 60)
  else if c = 'Z' then some (2 ^ 70)
  else if c = 'Y' then some (2 ^ 80)
  else none

/-- Python `int(x)` for a float `x`: truncation toward zero. -/
def pyqTruncInt (q : PyQ) : Int := q.num.tdiv q.den

/-- Multiply a fraction by an integer. -/
def pyqMulInt (q : PyQ) (m : Int) : PyQ := ⟨q.num * m, q.den⟩

/-- `human2bytes(s)`, returning `Except` for the exceptions that escape
the function. -/
def human2bytes (s : Option String) : Except PyExn (Option Int) :=
  match s with
  | none => .ok none
  | some str =>
    match pyIntOfString str with
    | some n => .ok (some n)
    | none =>
      let letter := (stripWs (lastCharL str.data)).map toUpperC
      match pyFloatOfString ⟨str.data.dropLast⟩ with
      | none => .error .valueError
      | some (.num q) =>
        match letter with
        | [c] =>
          match suffixMult c with
          | some m => .ok (some (pyqTruncInt (pyqMulInt q m)))
          | none => .error .keyError
        | _ => .error .keyError
      | some .inf => .error .overflowError
      | some .ninf => .error .overflowError
      | some .nan => .error .valueError

/-- **C8 counterexample.**  `human2bytes` is not total on strings and can
return negative integers: the empty string raises `ValueError` (from
`float('')` inside the except clause), `"-3"` parses to the negative
integer -3, and `"12Q"` raises `KeyError` (suffix not in `BKMGTPEZY`). -/
theorem c8_human2bytes_not_total :
    human2bytes (some "") = .error .valueError ∧
    human2bytes (some "-3") = .ok (some (-3)) ∧ (-3 : Int) < 0 ∧
    human2bytes (some "12Q") = .error .keyError := by
  refine ⟨rfl, rfl, by decide, rfl⟩

/-- **C8 (amended).**  `human2bytes` returns null only for `None` input,
never for a string; any string Python `int` accepts is returned as that
(possibly negative) integer; otherwise, whenever `float(s[:-1])` parses
to a finite value and the final character (stripped, upper-cased) is a
`BKMGTPEZY` key, the result is that float scaled by the binary
multiplier of the key; when `float(s[:-1])` fails the uncaught
`ValueError` propagates (e.g. for `"abc"`), and when the final character
is not a key the uncaught `KeyError` propagates. -/
theorem c8_human2bytes_behavior :
    human2bytes none = .ok none ∧
    (∀ s : String, human2bytes (some s) ≠ .ok none) ∧
    (∀ (s : String) (n : Int), pyIntOfString s = some n →
      human2bytes (some s) = .ok (some n)) ∧
    (∀ (s : String) (q : PyQ) (c : Char) (m : Int),
      pyIntOfString s = none →
      pyFloatOfString ⟨s.data.dropLast⟩ = some (.num q) →
      (stripWs (lastCharL s.data)).map toUpperC = [c] →
      suffixMult c = some m →
      human2bytes (some s) = .ok (some (pyqTruncInt (pyqMulInt q m)))) ∧
    (∀ s : String, pyIntOfString s = none →
      pyFloatOfString ⟨s.data.dropLast⟩ = none →
      human2bytes (some s) = .error .valueError) ∧
    (∀ (s : String) (q : PyQ) (c : Char),
      pyIntOfString s = none →
      pyFloatOfString ⟨s.data.dropLast⟩ = some (.num q) →
      (stripWs (lastCharL s.data)).map toUpperC = [c] →
      suffixMult c = none →
      human2bytes (some s) = .error .keyError) ∧
    human2bytes (some "abc") = .error .valueError := by
  refine ⟨rfl, ?_, ?_, ?_, ?_, ?_, rfl⟩
  · intro s h
    rcases hi : pyIntOfString s with _ | n
    · rcases hf : pyFloatOfString ⟨s.data.dropLast⟩ with _ | f
      · simp [human2bytes, hi, hf] at h
      · rcases f with q | _ | _ | _
        · rcases hl : (stripWs (lastCharL s.data)).map toUpperC with
            _ | ⟨c, rest⟩
          · simp [human2bytes, hi, hf, hl] at h
          · rcases rest with _ | ⟨d, r2⟩
            · rcases hm : suffixMult c with _ | m
              · simp [human2bytes, hi, hf, hl, hm] at h
              · simp [human2bytes, hi, hf, hl, hm] at h
            · simp [human2bytes, hi, hf, hl] at h
        · simp [human2bytes, hi, hf] at h
        · simp [human2bytes, hi, hf] at h
        · simp [human2bytes, hi, hf] at h
    · simp [human2bytes, hi] at h
  · intro s n h
    simp [human2bytes, h]
  · intro s q c m hi hf hl hm
    simp [human2bytes, hi, hf, hl, hm]
  · intro s hi hf
    simp [human2bytes, hi, hf]
  · intro s q c hi hf hl hm
    simp [human2bytes, hi, hf, hl, hm]

/-- Witness for C8 (amended): the integer path at `"42"`, the scaled
float path at `"1.5K"` (1536 bytes, via float 1.5 and multiplier 1024)
and the `KeyError` path at `"9Q"`. -/
theorem c8_human2bytes_behavior_witness :
    human2bytes (some "42") = .ok (some 42) ∧
    human2bytes (some "1.5K") = .ok (some 1536) ∧
    human2bytes (some "9Q") = .error .keyError :=
  ⟨c8_human2bytes_behavior.2.2.1 "42" 42 (by decide),
   c8_human2bytes_behavior.2.2.2.1 "1.5K" ⟨15, 10⟩ 'K' 1024 (by decide)
     (by decide) (by decide) (by decide),
   c8_human2bytes_behavior.2.2.2.2.2.1 "9Q" ⟨9, 1⟩ 'Q' (by decide)
     (by decide) (by decide) (by decide)⟩

/-! ## remove_package_version (src/piss.py lines 198-208)

Walk the path segments of `url.strip('/').split('/')`; URL-decode each,
delete every occurrence of the package name, strip surrounding
`' -_.'`; if what remains looks version-bearing, truncate there;
otherwise keep the segment.  Return `'/'.join([''] + kept) + '/'`. -/

/-- Python `str.split(sep)` for a one-character separator (keeps empty
pieces; the empty string yields `[""]`). -/
def pySplitChar (sep : Char) : List Char → List (List Char)
  | [] => [[]]
  | c :: r =>
    if c = sep then [] :: pySplitChar sep r
    else
      match pySplitChar sep r with
      | h :: t => (c :: h) :: t
      | [] => [[c]]

/-- Python `sep.join(pieces)` for a one-character separator. -/
def pyJoinChar (sep : Char) : List (List Char) → List Char
  | [] => []
  | [x] => x
  | x :: xs => x ++ sep :: pyJoinChar sep xs

/-- Python `str.strip(chars)`. -/
def stripCharsL (cs : List Char) (l : List Char) : List Char :=
  ((l.dropWhile (fun c => cs.contains c)).reverse.dropWhile
    (fun c => cs.contains c)).reverse

def hexVal (c : Char) : Option Nat :=
  if 48 ≤ c.toNat ∧ c.toNat ≤ 57 then some (c.toNat - 48)
  else if 65 ≤ c.toNat ∧ c.toNat ≤ 70 then some (c.toNat - 55)
  else if 97 ≤ c.toNat ∧ c.toNat ≤ 102 then some (c.toNat - 87)
  else none

/-- `urllib.parse.unquote`, modelled byte-wise: each `%xx` becomes the
character with that code (multi-byte UTF-8 sequences are not recombined;
no claim depends on them). -/
def pyUnquoteF : Nat → List Char → List Char
  | _, [] => []
  | 0, l => l
  | n + 1, '%' :: a :: b :: r =>
    match hexVal a, hexVal b with
    | some x, some y => Char.ofNat (16 * x + y) :: pyUnquoteF n r
    | _, _ => '%' :: pyUnquoteF n (a :: b :: r)
  | n + 1, c :: r => c :: pyUnquoteF n r

def pyUnquote (l : List Char) : List Char := pyUnquoteF l.length l

def pyReplAux (pat repl : List Char) : Nat → List Char → List Char
  | _, [] => []
  | 0, s => s
  | n + 1, c :: r =>
    if startsWithL pat (c :: r) then repl ++ pyReplAux pat repl n ((c :: r).drop pat.length)
    else c :: pyReplAux pat repl n r

/-- Python `str.replace(pat, repl)` (all occurrences, left to right,
non-overlapping; the empty pattern inserts `repl` at every boundary). -/
def pyReplaceL (pat repl s : List Char) : List Char :=
  if pat = [] then repl ++ s.flatMap (fun c => c :: repl)
  else pyReplAux pat repl s.length s

/-- `RE_VER_MINOR = \d+\.\d+$` anchored match: the whole string is
digits, a dot, digits. -/
def isVerMinor (l : List Char) : Bool :=
  let r := l.takeWhile isDigitC
  (!r.isEmpty) &&
    (match l.drop r.length with
     | '.' :: rest => (!rest.isEmpty) && rest.all isDigitC
     | _ => false)

/-- Contiguous-substring test (Python `in` on strings). -/
def containsSub : List Char → List Char → Bool
  | l, pat =>
    startsWithL pat l ||
      (match l with
       | [] => false
       | _ :: r => containsSub r pat)

def rpvChars : List Char := [' ', '-', '_', '.']

/-- The loop of `remove_package_version`: keep non-empty segments until a
version-bearing segment is found (then drop it and the rest). -/
def rpvLoop (nm version : List Char) : List (List Char) → List (List Char)
  | [] => []
  | s :: rest =>
    let vercheck := stripCharsL rpvChars (pyReplaceL nm [] (pyUnquote s))
    if decide (1 < vercheck.length) &&
        (containsSub vercheck version ||
          (!isVerMinor vercheck && startsWithL vercheck version)) then []
    else if s.isEmpty then rpvLoop nm version rest
    else s :: rpvLoop nm version rest

def removePackageVersionL (nm url version : List Char) : List Char :=
  pyJoinChar '/'
    ([] :: rpvLoop nm version (pySplitChar '/' (stripCharsL ['/'] url))) ++
    ['/']

def remove_package_version (nm url version : String) : String :=
  ⟨removePackageVersionL nm.data url.data version.data⟩

theorem pyJoinChar_nil_head (sep : Char) (L : List (List Char)) :
    (pyJoinChar sep ([] :: L) ++ [sep]).head? = some sep := by
  cases L with
  | nil => rfl
  | cons x xs => rfl

theorem append_singleton_getLast (l : List Char) (c : Char) :
    (l ++ [c]).getLast? = some c := by
  induction l with
  | nil => rfl
  | cons a la ih =>
    rw [List.cons_append, List.getLast?_cons]
    simp only [ih]
    cases la <;> simp_all

/-- **C9.**  For every package name, url path and version string,
`remove_package_version` returns a string beginning with `/` and ending
with `/`. -/
theorem c9_remove_package_version_slashes (nm url version : String) :
    (remove_package_version nm url version).data.head? = some '/' ∧
    (remove_package_version nm url version).data.getLast? = some '/' := by
  constructor
  · exact pyJoinChar_nil_head '/' _
  · exact append_singleton_getLast _ _

/-! ## version_format (src/piss.py lines 142-158)

From a reference version, build the shape pattern: each maximal run of
digits becomes `\d+` (or `\d{3,}` when at least 3 long), letters become
`[A-Za-z]+`, anything else `[._+~-]+` (the else branch of the loop maps
even unmatched separator runs to the punctuation class).  Matching is
`re.match`, i.e. an anchored prefix match, used only as a boolean. -/

inductive VPiece where
  | dsmall
  | dbig
  | alpha
  | punct
deriving DecidableEq

def isPunctC (c : Char) : Bool :=
  c = '.' || c = '_' || c = '+' || c = '~' || c = '-'

def charClassIdx (c : Char) : Nat :=
  if isDigitC c then 0
  else if isAlphaC c then 1
  else if isPunctC c then 2
  else 3

/-- Maximal runs of a single character class (the nonempty pieces of
`RE_CHARCLASS.split`, captured or unmatched), with a length fuel so it
reduces in the kernel. -/
def classRunsF : Nat → List Char → List (List Char)
  | _, [] => []
  | 0, _ => []
  | n + 1, c :: rest =>
    (c :: rest.takeWhile (fun x => charClassIdx x == charClassIdx c)) ::
      classRunsF n (rest.dropWhile (fun x => charClassIdx x == charClassIdx c))

def classRuns (l : List Char) : List (List Char) := classRunsF l.length l

def pieceOfRun (r : List Char) : VPiece :=
  if r.all isDigitC then (if r.length < 3 then .dsmall else .dbig)
  else if r.all isAlphaC then .alpha
  else .punct

/-- `version_format(origversion)` as a piece list; a falsy version gives
the empty pattern, which matches everything. -/
def vfPieces (version : Option String) : List VPiece :=
  match version with
  | none => []
  | some v => if v = "" then [] else (classRuns v.data).map pieceOfRun

def pieceMin (p : VPiece) : Nat :=
  match p with
  | .dbig => 3
  | _ => 1

def pieceOk (p : VPiece) (c : Char) : Bool :=
  match p with
  | .dsmall => isDigitC c
  | .dbig => isDigitC c
  | .alpha => isAlphaC c
  | .punct => isPunctC c

/-- `bool(pattern.match(s))` for the anchored concatenation of pieces: a
prefix of `s` splits into consecutive blocks accepted by the pieces. -/
def vfMatch : List VPiece → List Char → Bool
  | [], _ => true
  | p :: ps, s =>
    (List.range (s.length + 1)).any fun k =>
      decide (pieceMin p ≤ k) && (s.take k).all (pieceOk p) &&
        vfMatch ps (s.drop k)

/-! ## Shared dict / max machinery for tag_maxver and tarball_maxver

Python dict assignment keeps the position of an existing key and
replaces its value; `max` returns the first maximum in iteration order
(it replaces the current best only on a strictly greater candidate). -/

def upsertKV {κ ν : Type} [DecidableEq κ] (k : κ) (v : ν) :
    List (κ × ν) → List (κ × ν)
  | [] => [(k, v)]
  | (k0, v0) :: rest =>
    if k0 = k then (k0, v) :: rest else (k0, v0) :: upsertKV k v rest

def maxByCmp {κ : Type} (cmp : κ → κ → Int) : List κ → Option κ
  | [] => none
  | k :: rest =>
    some (rest.foldl (fun best x => if cmp x best > 0 then x else best) k)

def bcmp (a b : Bool) : Int :=
  icmp (if a then 1 else 0) (if b then 1 else 0)

/-- Comparison of the keys `(vermatch, ver)` of `tag_maxver`. -/
def tagKeyCmp (a b : Bool × String) : Int :=
  if bcmp a.1 b.1 = 0 then version_compare a.2 b.2 else bcmp a.1 b.1

/-! ## tag_maxver (src/piss.py lines 182-196)

When `prefix` is falsy (`None` or empty), the loop never assigns `ver`
before reading it, so the first iteration over a non-empty tag list
raises `UnboundLocalError`. -/

structure SCMTag where
  name : String
  updated : Int
  desc : Option String
deriving DecidableEq

inductive TagErr where
  | unboundLocal
deriving DecidableEq

/-- `re.sub('^' + re.escape(prefix) + '[._-]', '', tag, flags=re.I)`. -/
def stripPfxCI (pfx s : List Char) : List Char :=
  if ciStartsWith pfx s then
    match s.drop pfx.length with
    | c :: rest => if c ∈ pkgSeps then rest else s
    | [] => s
  else s

/-- `RE_VERSION = \d+\.\d+|\d{3,}` matched at the start. -/
def reVersionMatch (l : List Char) : Bool :=
  let r := l.takeWhile isDigitC
  ((!r.isEmpty) &&
    (match l.drop r.length with
     | '.' :: d :: _ => isDigitC d
     | _ => false)) || decide (3 ≤ r.length)

def pyTruthyStr : Option String → Bool
  | none => false
  | some p => !(p == "")

/-- The body of the `tag_maxver` loop and final `max`, reached only when
`prefix` is truthy (or the tag list is empty). -/
def tagMaxverCore (taglist : List SCMTag) (pfx : Option String)
    (origversion : Option String) : Option String × Option SCMTag :=
  let pieces := vfPieces origversion
  let versions := taglist.foldl (fun acc tag =>
    let ver := stripVerPrefixL (stripPfxCI (pfx.getD "").data tag.name.data)
    if reVersionMatch ver then
      upsertKV (vfMatch pieces ver, (⟨ver⟩ : String)) tag acc
    else acc) []
  match maxByCmp tagKeyCmp (versions.map (fun kv => kv.1)) with
  | none => (none, none)
  | some key => (some key.2, versions.lookup key)

def tag_maxver (taglist : List SCMTag) (pfx : Option String)
    (origversion : Option String) :
    Except TagErr (Option String × Option SCMTag) :=
  if taglist ≠ [] ∧ pyTruthyStr pfx = false then .error .unboundLocal
  else .ok (tagMaxverCore taglist pfx origversion)

/-! Helpers about `repo.split('/')[-1]`, the prefix expression used by
`check_github` (and `check_bitbucket` / `check_gitlab`). -/

def lastSegStr (s : String) : String :=
  ⟨((pySplitChar '/' s.data).getLast?).getD []⟩

theorem pySplitChar_ne_nil (sep : Char) (l : List Char) :
    pySplitChar sep l ≠ [] := by
  cases l with
  | nil => simp [pySplitChar]
  | cons c r =>
    by_cases h : c = sep
    · simp [pySplitChar, h]
    · rcases h2 : pySplitChar sep r with _ | ⟨h0, t⟩ <;>
        simp [pySplitChar, h, h2]

theorem pySplitChar_no_sep (sep : Char) (l : List Char) (h : sep ∉ l) :
    pySplitChar sep l = [l] := by
  induction l with
  | nil => rfl
  | cons c r ih =>
    have hc : ¬ c = sep := by
      intro h0
      exact h (by simp [h0])
    have hr : sep ∉ r := fun h0 => h (List.mem_cons_of_mem c h0)
    simp [pySplitChar, hc, ih hr]

theorem pySplitChar_two_le (sep : Char) (a b : List Char) :
    2 ≤ (pySplitChar sep (a ++ sep :: b)).length := by
  induction a with
  | nil =>
    have hne := pySplitChar_ne_nil sep b
    rcases h : pySplitChar sep b with _ | ⟨x, xs⟩
    · exact absurd h hne
    · simp [pySplitChar, h]
  | cons c a ih =>
    by_cases h : c = sep
    · have hne := pySplitChar_ne_nil sep (a ++ sep :: b)
      rcases h2 : pySplitChar sep (a ++ sep :: b) with _ | ⟨x, xs⟩
      · exact absurd h2 hne
      · simp [pySplitChar, h, h2]
    · rcases h2 : pySplitChar sep (a ++ sep :: b) with _ | ⟨x, xs⟩
      · exact absurd h2 (pySplitChar_ne_nil sep _)
      · have := ih
        rw [h2] at this
        simp only [List.length_cons] at this
        simp [pySplitChar, h, h2]
        omega

theorem pySplitChar_getLast_append (sep : Char) (a b : List Char) :
    (pySplitChar sep (a ++ sep :: b)).getLast? =
      (pySplitChar sep b).getLast? := by
  induction a with
  | nil =>
    rcases h : pySplitChar sep b with _ | ⟨x, xs⟩
    · exact absurd h (pySplitChar_ne_nil sep b)
    · show (pySplitChar sep (sep :: b)).getLast? = _
      simp [pySplitChar, h, List.getLast?_cons_cons]
  | cons c a ih =>
    by_cases h : c = sep
    · rcases h2 : pySplitChar sep (a ++ sep :: b) with _ | ⟨x, xs⟩
      · exact absurd h2 (pySplitChar_ne_nil sep _)
      · show (pySplitChar sep (c :: (a ++ sep :: b))).getLast? = _
        rw [← ih, h2]
        simp [pySplitChar, h, h2, List.getLast?_cons_cons]
    · rcases h2 : pySplitChar sep (a ++ sep :: b) with _ | ⟨x, xs⟩
      · exact absurd h2 (pySplitChar_ne_nil sep _)
      · have hlen := pySplitChar_two_le sep a b
        rw [h2] at hlen
        simp only [List.length_cons] at hlen
        rcases xs with _ | ⟨y, ys⟩
        · simp at hlen
        · show (pySplitChar sep (c :: (a ++ sep :: b))).getLast? = _
          rw [← ih, h2]
          simp [pySplitChar, h, h2, List.getLast?_cons_cons]

/-- `check_github`: prefix for a well-formed repo `owner/name` is `name`. -/
theorem lastSegStr_append (owner nm : String) (hsep : '/' ∉ nm.data) :
    lastSegStr (owner ++ "/" ++ nm) = nm := by
  unfold lastSegStr
  have hdata : (owner ++ "/" ++ nm).data = owner.data ++ '/' :: nm.data := by
    simp [String.data_append]
  rw [hdata, pySplitChar_getLast_append, pySplitChar_no_sep _ _ hsep]
  cases nm
  rfl

/-- **C10 (amended).**  `tag_maxver` needs a non-empty prefix: with
`None` or `""` and a non-empty tag list it fails with
`UnboundLocalError` (`ver` read before assignment); with any non-empty
prefix it is total; and the github/gitlab prefix expression
`repo.split('/')[-1]` is the non-empty repository name for every
well-formed `owner/name` repo.  (Not every caller is safe, though: the
cgit path can pass an empty project, see the counterexample.) -/
theorem c10_tag_maxver_prefix :
    (∀ (tags : List SCMTag) (orig : Option String), tags ≠ [] →
      tag_maxver tags none orig = .error .unboundLocal) ∧
    (∀ (tags : List SCMTag) (orig : Option String), tags ≠ [] →
      tag_maxver tags (some "") orig = .error .unboundLocal) ∧
    (∀ (tags : List SCMTag) (p : String) (orig : Option String), p ≠ "" →
      (tag_maxver tags (some p) orig).isOk = true) ∧
    (∀ owner nm : String, nm ≠ "" → '/' ∉ nm.data →
      lastSegStr (owner ++ "/" ++ nm) = nm ∧
      lastSegStr (owner ++ "/" ++ nm) ≠ "") := by
  refine ⟨?_, ?_, ?_, ?_⟩
  · intro tags orig hne
    rw [tag_maxver, if_pos ⟨hne, rfl⟩]
  · intro tags orig hne
    rw [tag_maxver, if_pos ⟨hne, rfl⟩]
  · intro tags p orig hp
    have hcond : ¬(tags ≠ [] ∧ pyTruthyStr (some p) = false) := by
      intro hcon
      have := hcon.2
      simp [pyTruthyStr] at this
      exact hp this
    rw [tag_maxver, if_neg hcond]
    rfl
  · intro owner nm hnm hsep
    have h := lastSegStr_append owner nm hsep
    exact ⟨h, by rw [h]; exact hnm⟩

/-- Witness for C10 at a concrete non-empty tag list. -/
theorem c10_tag_maxver_prefix_witness :
    tag_maxver [⟨"v1.0", 0, none⟩] none none = .error .unboundLocal :=
  c10_tag_maxver_prefix.1 [⟨"v1.0", 0, none⟩] none (by simp)

/-! ## RE_BINARY (src/piss.py line 45)

`[._+-](linux32|linux64|windows|win32|win64|win\b|w32|w64|mingw|msvc|mac|
osx|darwin|ios|x86|i.86|x64|amd64|arm64|armhf|armel|mips|ppc|powerpc|
s390x|portable|dbgsym)` searched case-insensitively anywhere in the
filename. -/

def binSepChars : List Char := ['.', '_', '+', '-']

def isWordC (c : Char) : Bool := isDigitC c || isAlphaC c || c = '_'

def binTokens : List (List Char) :=
  ["linux32".data, "linux64".data, "windows".data, "win32".data,
   "win64".data, "w32".data, "w64".data, "mingw".data, "msvc".data,
   "mac".data, "osx".data, "darwin".data, "ios".data, "x86".data,
   "x64".data, "amd64".data, "arm64".data, "armhf".data, "armel".data,
   "mips".data, "ppc".data, "powerpc".data, "s390x".data,
   "portable".data, "dbgsym".data]

/-- One of the alternatives matches at the start of `s` (the `win\b`
alternative needs a word boundary, `i.86` has a wildcard). -/
def binTokenAt (s : List Char) : Bool :=
  binTokens.any (fun t => ciStartsWith t s) ||
  (ciStartsWith "win".data s &&
    (match s.drop 3 with
     | [] => true
     | c :: _ => !isWordC c)) ||
  (match s with
   | c0 :: _ :: c2 :: c3 :: _ => (toLowerC c0 = 'i') && c2 = '8' && c3 = '6'
   | _ => false)

/-- `RE_BINARY.search(filename)` as a boolean. -/
def hasBinaryMarker : List Char → Bool
  | [] => false
  | c :: rest =>
    (binSepChars.contains c && binTokenAt rest) || hasBinaryMarker rest

/-! ## RE_TARBALL (src/piss.py line 43)

`^(.+?)[._-][vr]?(\d.*?)(?:[._-](?:orig|src|source))?
(\.tar\.xz|\.tar\.bz2|\.tar\.gz|\.t.z|\.zip|\.gem)$`, matched
case-insensitively with Python backtracking: group 1 is lazy (shortest
first), `[vr]?` greedy, group 2 lazy.  Only groups 1 and 2 are used by
the program. -/

/-- Case-insensitive equality of `s` with a literal pattern. -/
def ciEqL (pat s : List Char) : Bool :=
  decide (s.length = pat.length) && ciStartsWith pat s

/-- The extension alternation, anchored at the end (it is the tail of the
pattern, followed by `$`). -/
def tarballExtOk (s : List Char) : Bool :=
  ciEqL ".tar.xz".data s || ciEqL ".tar.bz2".data s ||
  ciEqL ".tar.gz".data s ||
  (match s with
   | ['.', t, _, z] => (toLowerC t = 't') && (toLowerC z = 'z')
   | _ => false) ||
  ciEqL ".zip".data s || ciEqL ".gem".data s

def midWords : List (List Char) := ["orig".data, "src".data, "source".data]

/-- Acceptance of the part after group 2: the optional
`[._-](orig|src|source)` (tried greedily) and the extension to the end. -/
def tarballSuffixOk (s : List Char) : Bool :=
  (match s with
   | c :: rest =>
     pkgSeps.contains c &&
       midWords.any (fun w =>
         ciStartsWith w rest && tarballExtOk (rest.drop w.length))
   | [] => false) || tarballExtOk s

/-- The lazy `.*?` of group 2: extend the group one character at a time
until the remaining suffix is accepted. -/
def lazyG2 : List Char → List Char → Option (List Char × List Char)
  | _, [] => none
  | acc, c :: r =>
    if tarballSuffixOk (c :: r) then some (acc.reverse, c :: r)
    else lazyG2 (c :: acc) r

/-- Group 2: a digit followed by the lazy tail. -/
def group2Find (s : List Char) : Option (List Char × List Char) :=
  match s with
  | c :: rest =>
    if isDigitC c then
      if tarballSuffixOk rest then some ([c], rest) else lazyG2 [c] rest
    else none
  | [] => none

/-- After the `[._-]` separator: try the greedy `[vr]?` with the
character consumed first, then without. -/
def afterSep (s : List Char) : Option (List Char) :=
  match s with
  | c :: rest =>
    if c = 'v' ∨ c = 'V' ∨ c = 'r' ∨ c = 'R' then
      match group2Find rest with
      | some g => some g.1
      | none => (group2Find s).map (fun g => g.1)
    else (group2Find s).map (fun g => g.1)
  | [] => none

/-- The lazy group 1: try each split point left to right; at a separator
character, succeed if the rest matches, else grow the group. -/
def tarballMatchAux : List Char → List Char → Option (List Char × List Char)
  | _, [] => none
  | acc, c :: rest =>
    (if (!acc.isEmpty) && pkgSeps.contains c then
       (afterSep rest).map (fun g2 => (acc.reverse, g2))
     else none) <|> tarballMatchAux (c :: acc) rest

/-- `RE_TARBALL.match(filename)`: groups 1 and 2 (`None` if no match). -/
def tarballMatch (l : List Char) : Option (List Char × List Char) :=
  tarballMatchAux [] l

/-! ## tarball_maxver (src/piss.py lines 160-180) -/

structure Tarball where
  filename : String
  updated : Int
  desc : Option String
deriving DecidableEq

/-- Comparison of the keys `(pfxmatch, vermatch, ver)`. -/
def tblKeyCmp (a b : Bool × Bool × String) : Int :=
  if bcmp a.1 b.1 = 0 then
    (if bcmp a.2.1 b.2.1 = 0 then version_compare a.2.2 b.2.2
     else bcmp a.2.1 b.2.1)
  else bcmp a.1 b.1

def lowerStr (s : String) : String := ⟨s.data.map toLowerC⟩

def tarball_maxver (tbllist : List Tarball) (nm : Option String)
    (origversion : Option String) : Option String × Option Tarball :=
  let pieces := vfPieces origversion
  let tblversions := tbllist.foldl (fun acc t =>
    match nm with
    | none => acc
    | some nmv =>
      if nmv = "" then acc
      else if !(startsWithL (lowerStr nmv).data (lowerStr t.filename).data)
        then acc
      else if hasBinaryMarker t.filename.data then acc
      else
        match tarballMatch t.filename.data with
        | none => acc
        | some (g1, g2) =>
          upsertKV ((⟨g1⟩ : String) == nmv, vfMatch pieces g2,
            (⟨g2⟩ : String)) t acc) []
  match maxByCmp tblKeyCmp (tblversions.map (fun kv => kv.1)) with
  | none => (none, none)
  | some key => (some key.2.2, tblversions.lookup key)

/-- **C6.**  On the literal scenario, the `linux64` artifact is excluded
by the binary-artifact regex and the maximum over the lexicographic key
`(prefix == name, shape matches origversion, version order)` picks
version `"1.10"` together with its tarball entry. -/
theorem c6_tarball_maxver_scenario (t1 t2 t3 : Int)
    (d1 d2 d3 : Option String) :
    tarball_maxver
      [⟨"foo-1.2.tar.gz", t1, d1⟩, ⟨"foo-1.10.tar.gz", t2, d2⟩,
       ⟨"foo-linux64-2.0.tar.gz", t3, d3⟩] (some "foo") (some "1.2") =
      (some "1.10", some ⟨"foo-1.10.tar.gz", t2, d2⟩) ∧
    hasBinaryMarker "foo-linux64-2.0.tar.gz".data = true ∧
    hasBinaryMarker "foo-1.2.tar.gz".data = false ∧
    hasBinaryMarker "foo-1.10.tar.gz".data = false := by
  exact ⟨rfl, by decide, by decide, by decide⟩

/-! ## URL parsing (urllib.parse, as used by detect_upstream)

`urlparse` is modelled for the URL shapes the program handles: scheme
before the first `:` when it is a valid scheme name, `//netloc` up to the
next `/?#`, fragment after the first `#`, query after the first `?`, and
params after a `;` in the last path segment.  `hostname` lower-cases the
netloc and strips userinfo and port. -/

structure URLParts where
  scheme : String
  netloc : String
  path : String
  params : String
  query : String
  fragment : String
deriving DecidableEq

def lstripChars (cs : List Char) (l : List Char) : List Char :=
  l.dropWhile (fun c => cs.contains c)

def rstripChars (cs : List Char) (l : List Char) : List Char :=
  (l.reverse.dropWhile (fun c => cs.contains c)).reverse

def endsWithL (pat l : List Char) : Bool :=
  startsWithL pat.reverse l.reverse

/-- First index at which `pat` occurs in the list (Python `str.find`). -/
def findSub (pat : List Char) : List Char → Option Nat
  | [] => if startsWithL pat [] then some 0 else none
  | c :: r =>
    if startsWithL pat (c :: r) then some 0
    else (findSub pat r).map (fun n => n + 1)

/-- Split at the last occurrence of `sep`: `l = a ++ sep :: b` with `sep`
not in `b`. -/
def splitAtLast (sep : Char) (l : List Char) :
    Option (List Char × List Char) :=
  match splitAtFirst (fun c => c = sep) l.reverse with
  | (_, none) => none
  | (brev, some arev) => some (arev.reverse, brev.reverse)

def isSchemeChar (c : Char) : Bool :=
  isAlphaC c || isDigitC c || c = '+' || c = '.' || c = '-'

def splitScheme (l : List Char) : Option (List Char × List Char) :=
  match splitAtFirst (fun c => c = ':') l with
  | (_, none) => none
  | (a, some rest) =>
    match a with
    | [] => none
    | c :: cs =>
      if isAlphaC c && cs.all isSchemeChar then some (a.map toLowerC, rest)
      else none

def netlocSplit (l : List Char) : List Char × List Char :=
  match l with
  | '/' :: '/' :: rest =>
    let n := rest.takeWhile (fun c => !(c = '/' || c = '?' || c = '#'))
    (n, rest.drop n.length)
  | _ => ([], l)

/-- `urllib.parse._splitparams`. -/
def paramsSplit (l : List Char) : List Char × List Char :=
  match splitAtLast '/' l with
  | some (a, b) =>
    (match splitAtFirst (fun c => c = ';') b with
     | (b1, some b2) => (a ++ '/' :: b1, b2)
     | (_, none) => (l, []))
  | none =>
    match splitAtFirst (fun c => c = ';') l with
    | (a, some b) => (a, b)
    | (_, none) => (l, [])

def urlparse (url : String) : URLParts :=
  let sr := match splitScheme url.data with
    | some (s, r) => (s, r)
    | none => ([], url.data)
  let nl := netlocSplit sr.2
  let hf := splitAtFirst (fun c => c = '#') nl.2
  let pq := splitAtFirst (fun c => c = '?') hf.1
  let pp := paramsSplit pq.1
  ⟨⟨sr.1⟩, ⟨nl.1⟩, ⟨pp.1⟩, ⟨pp.2⟩, ⟨pq.2.getD []⟩, ⟨hf.2.getD []⟩⟩

/-- `urlp.hostname`: strip userinfo (after the last `@`) and port (after
the first `:`), lower-case; `None` when empty. -/
def urlHostname (netloc : List Char) : Option (List Char) :=
  let afterAt := match splitAtLast '@' netloc with
    | some (_, b) => b
    | none => netloc
  let host := (splitAtFirst (fun c => c = ':') afterAt).1
  if host.isEmpty then none else some (host.map toLowerC)

/-- `urllib.parse.urlunparse`. -/
def urlunparse (u : URLParts) : String :=
  let url0 :=
    if u.params = "" then u.path.data else u.path.data ++ ';' :: u.params.data
  let url1 :=
    if u.netloc ≠ "" ∨ (url0 ≠ [] ∧ url0.take 2 = ['/', '/']) then
      '/' :: '/' :: (u.netloc.data ++
        (if url0 ≠ [] ∧ url0.head? ≠ some '/' then '/' :: url0 else url0))
    else url0
  let url2 := if u.scheme ≠ "" then u.scheme.data ++ ':' :: url1 else url1
  let url3 := if u.query ≠ "" then url2 ++ '?' :: u.query.data else url2
  let url4 :=
    if u.fragment ≠ "" then url3 ++ '#' :: u.fragment.data else url3
  ⟨url4⟩

/-- `os.path.split`. -/
def ospathSplit (p : List Char) : List Char × List Char :=
  match splitAtLast '/' p with
  | none => ([], p)
  | some (a, b) =>
    let head := a ++ ['/']
    (if head.all (fun c => c = '/') then head
     else (head.reverse.dropWhile (fun c => c = '/')).reverse, b)

/-- `os.path.splitext`: the extension starts at the last dot of the
basename, unless the basename up to it is all dots. -/
def ospathSplitext (p : List Char) : List Char × List Char :=
  let b := match splitAtLast '/' p with
    | none => p
    | some x => x.2
  match splitAtLast '.' b with
  | none => (p, [])
  | some (pre, post) =>
    if pre.any (fun c => c ≠ '.') then
      (p.take (p.length - (post.length + 1)), '.' :: post)
    else (p, [])

def COMMON_EXT : List String :=
  [".gz", ".bz2", ".xz", ".tar", ".7z", ".rar", ".zip", ".tgz", ".tbz",
   ".txz"]

def CGIT_SITES : List String :=
  ["git.kernel.org", "git.zx2c4.com", "git.gnome.org",
   "git.deluge-torrent.org", "git.netsurf-browser.org",
   "git.archlinux.org", "git.torproject.org", "git.opensvc.com",
   "repo.or.cz"]

/-! ## detect_upstream (src/piss.py lines 438-553) -/

inductive Upstream where
  | github (repo : String)
  | gitlab (repo : String)
  | bitbucket (repo : String) (kind : String) (pfx : Option String)
  | pypi (pypiname : String)
  | rubygems (gem : String)
  | npm (proj : String)
  | launchpad (proj : String)
  | ftp (url : String) (pfx : String)
  | cgit (url : String) (project : String)
  | sourceforge (project : String) (path : String) (pfx : Option String)
  | dirlist (url : String) (pfx : Option String)
deriving DecidableEq

/-- The exceptions `detect_upstream` itself can raise: `.group(1)` on a
failed match (rubygems), indexing a too-short path (sourceforge), and
attribute/membership operations on a `None` hostname. -/
inductive UpErr where
  | attributeError
  | typeError
  | indexError
deriving DecidableEq

/-- `RE_PYPISRC.match(url)` (no `re.I`): `https?` then
`://pypi.(python.org|io)/packages/source/`. -/
def rePypiSrc (url : List Char) : Bool :=
  startsWithL "https://pypi.python.org/packages/source/".data url ||
  startsWithL "https://pypi.io/packages/source/".data url ||
  startsWithL "http://pypi.python.org/packages/source/".data url ||
  startsWithL "http://pypi.io/packages/source/".data url

/-- `s.rsplit(sep, 1)[0]`. -/
def rsplitOnceBefore (sep : Char) (l : List Char) : List Char :=
  match splitAtLast sep l with
  | some (a, _) => a
  | none => l

/-- `repo[:-4]` when the repo ends in `.git`. -/
def stripDotGit (l : List Char) : List Char :=
  if endsWithL ".git".data l then l.take (l.length - 4) else l

/-- The common tail of the SRCTBL/http branch: strip the version-bearing
path components when a version is known, clear the fragment, and return a
`dirlist` probe. -/
def dirlistTail (nm : String) (urlp : URLParts) (path1 : List Char)
    (pfx : Option String) (version : Option String) :
    Except UpErr (Option Upstream) :=
  let path2 := match version with
    | some v => if v ≠ "" then removePackageVersionL nm.data path1 v.data
                else path1
    | none => path1
  .ok (some (.dirlist
    (urlunparse { urlp with path := ⟨path2⟩, fragment := "" }) pfx))

def detect_upstream (nm srctype url : String) (version : Option String) :
    Except UpErr (Option Upstream) :=
  let urlp := urlparse url
  let pathL := urlp.path.data
  if urlp.netloc = "github.com" then
    .ok (some (.github ⟨stripDotGit
      (pyJoinChar '/' ((pySplitChar '/' (lstripChars ['/'] pathL)).take 2))⟩))
  else if urlp.netloc = "gitlab.com" then
    .ok (some (.gitlab ⟨stripDotGit
      (pyJoinChar '/' ((pySplitChar '/' (lstripChars ['/'] pathL)).take 2))⟩))
  else if urlp.netloc = "bitbucket.org" then
    let pathseg := pySplitChar '/' (lstripChars ['/'] pathL)
    let repo := stripDotGit (pyJoinChar '/' (pathseg.take 2))
    let pfx : Option String :=
      match tarballMatch ((pySplitChar '/' pathL).getLastD []) with
      | some g => some ⟨g.1⟩
      | none => none
    if 2 < pathseg.length ∧ pathseg.get? 2 = some "downloads".data then
      .ok (some (.bitbucket ⟨repo⟩ "downloads" pfx))
    else .ok (some (.bitbucket ⟨repo⟩ "tag" pfx))
  else if urlp.netloc = "pypi.io" ∨ urlp.netloc = "pypi.python.org" then
    if rePypiSrc url.data then
      let parts := pySplitChar '/' pathL
      match parts.get? (parts.length - 2) with
      | some nm2 => .ok (some (.pypi ⟨nm2⟩))
      | none => .error .indexError
    else
      .ok (some (.pypi
        ⟨rsplitOnceBefore '-' ((pySplitChar '/' pathL).getLastD [])⟩))
  else if urlp.netloc = "rubygems.org" ∨ urlp.netloc = "gems.rubyforge.org"
    then
    match tarballMatch ((pySplitChar '/' pathL).getLastD []) with
    | some g => .ok (some (.rubygems ⟨g.1⟩))
    | none => .error .attributeError
  else if urlp.netloc = "registry.npmjs.org" then
    .ok (some (.npm
      ⟨(pySplitChar '/' (stripCharsL ['/'] pathL)).headD []⟩))
  else if urlp.netloc = "launchpad.net" then
    let projname := (pySplitChar '/' (stripCharsL ['/'] pathL)).headD []
    let projnl := projname.map toLowerC
    if containsSub projnl nm.data || containsSub nm.data projnl then
      .ok (some (.launchpad ⟨projname⟩))
    else .ok none
  else if urlp.scheme = "ftp" then
    let sp := ospathSplit pathL
    let newpath1 := if sp.1 ≠ ['/'] then sp.1 ++ ['/'] else sp.1
    let newpath2 := match version with
      | some v => if v ≠ "" then removePackageVersionL nm.data newpath1 v.data
                  else newpath1
      | none => newpath1
    match tarballMatch sp.2 with
    | none => .ok none
    | some g =>
      .ok (some (.ftp (urlunparse { urlp with path := ⟨newpath2⟩ }) ⟨g.1⟩))
  else if containsSub url.data "cgit".data ||
      ((srctype == "GITSRC" || containsSub url.data "git".data) &&
        (CGIT_SITES.contains urlp.netloc ||
          containsSub pathL "/snapshot/".data)) then
    let scheme' := if urlp.scheme = "git" then "http" else urlp.scheme
    let path' := match findSub "/snapshot/".data pathL with
      | some i => pathL.take (i + 1)
      | none => pathL
    let newurl := (urlunparse
      { urlp with scheme := scheme', path := ⟨path'⟩ }).data
    let newurl2 := (splitAtFirst (fun c => c = ';') newurl).1
    if (tarballMatch ((pySplitChar '/' newurl2).getLastD [])).isSome then
      .ok none
    else
      let project0 := rstripChars ['/'] path'
      let project1 :=
        if endsWithL ".git".data project0 then
          rstripChars ['/'] (project0.take (project0.length - 4))
        else project0
      .ok (some (.cgit ⟨newurl2⟩
        ⟨(pySplitChar '/' project1).getLastD []⟩))
  else if srctype ≠ "SRCTBL" then .ok none
  else if urlp.scheme = "http" ∨ urlp.scheme = "https" then
    if urlp.query = "" then
      let ext := (ospathSplitext pathL).2
      let pf : List Char × Option (List Char) :=
        if COMMON_EXT.contains ⟨ext⟩ then
          let sp := ospathSplit pathL
          (if sp.1 ≠ ['/'] then sp.1 ++ ['/'] else sp.1, some sp.2)
        else (pathL, none)
      let path1 := pf.1
      let pfx : Option String := match pf.2 with
        | some f =>
          if f.isEmpty then none
          else match tarballMatch f with
            | some g => some ⟨g.1⟩
            | none => none
        | none => none
      match urlHostname urlp.netloc.data with
      | some h =>
        if h = "sourceforge.net".data then
          let segs := pySplitChar '/' (stripCharsL ['/'] path1)
          if segs.headD [] = "projects".data then
            match segs.get? 1 with
            | some proj =>
              .ok (some (.sourceforge ⟨proj⟩
                ⟨'/' :: pyJoinChar '/' (segs.drop 3)⟩ pfx))
            | none => .error .indexError
          else if segs.headD [] = "code-snapshots".data then
            match segs.get? 4 with
            | some proj => .ok (some (.sourceforge ⟨proj⟩ "/" pfx))
            | none => .error .indexError
          else dirlistTail nm urlp path1 pfx version
        else if h = "downloads.sourceforge.net".data ∨
            h = "prdownloads.sourceforge.net".data ∨
            h = "download.sourceforge.net".data then
          let segs := pySplitChar '/' (stripCharsL ['/'] path1)
          if segs.headD [] = "project".data then
            match segs.get? 1 with
            | some proj =>
              .ok (some (.sourceforge ⟨proj⟩
                ⟨'/' :: pyJoinChar '/' (segs.drop 2)⟩ pfx))
            | none => .error .indexError
          else if segs.headD [] = "sourceforge".data then
            match segs.get? 1 with
            | some proj => .ok (some (.sourceforge ⟨proj⟩ "/" pfx))
            | none => .error .indexError
          else .ok (some (.sourceforge ⟨segs.headD []⟩ "/" pfx))
        else if endsWithL ".sourceforge.net".data h then
          .ok (some (.sourceforge
            ⟨(splitAtFirst (fun c => c = '.') h).1⟩ "/" pfx))
        else dirlistTail nm urlp path1 pfx version
      | none => .error .attributeError
    else
      match urlHostname urlp.netloc.data with
      | some h =>
        if containsSub h nm.data then
          .ok (some (.dirlist (urlunparse
            { urlp with path := "/", params := "", fragment := "" }) none))
        else
          .ok (some (.dirlist (urlunparse { urlp with fragment := "" })
            none))
      | none => .error .typeError
  else .ok none

/-- **C7.**  The two literal classifications of the claim. -/
theorem c7_detect_upstream_literals :
    detect_upstream "curl" "SRCTBL"
      "https://curl.se/download/curl-7.88.1.tar.xz" (some "7.88.1") =
      .ok (some (.dirlist "https://curl.se/download/" (some "curl"))) ∧
    detect_upstream "foo" "SRCTBL"
      "https://github.com/org/foo/archive/v1.0.tar.gz" (some "1.0") =
      .ok (some (.github "org/foo")) := by
  exact ⟨by decide, by decide⟩

/-- **C3 (code bug).**  For a package whose upstream cannot be detected
(e.g. a `GITSRC` at an unknown host), the code runs
`UPDATE upstream_status SET last_try=? AND err=?`, which SQLite parses as
assigning only `last_try` the boolean value
`fetch_time AND (err = 'can''t detect upstream')`; for a fresh row
(`err` NULL) that value is NULL, so neither `err` nor `last_try` receives
the claimed values, while the claim (and the obvious intent: the parallel
success-path UPDATE uses a comma, and the log warns
"can't detect upstream") requires `err = 'can''t detect upstream'` and
`last_try = fetch_time`. -/
theorem c3_cant_detect_upstream_update_bug (t : Int) (ht : t ≠ 0) :
    detect_upstream "foo" "GITSRC" "https://example.com/foo.git"
      (some "1.0") = .ok none ∧
    (missUpdate t (freshStatusRow "foo")).err = none ∧
    (missUpdate t (freshStatusRow "foo")).err ≠ some cantDetectMsg ∧
    (missUpdate t (freshStatusRow "foo")).last_try = none ∧
    (missUpdate t (freshStatusRow "foo")).last_try ≠ some t := by
  refine ⟨by decide, rfl, by simp [missUpdate, freshStatusRow], ?_, ?_⟩
  · simp [missUpdate, freshStatusRow, sqlAnd, sqlEqText, ht]
  · simp [missUpdate, freshStatusRow, sqlAnd, sqlEqText, ht]

/-- Witness for C3 at a concrete fetch time. -/
theorem c3_cant_detect_upstream_update_bug_witness :
    (missUpdate 1700000000 (freshStatusRow "foo")).err = none ∧
    (missUpdate 1700000000 (freshStatusRow "foo")).last_try = none :=
  ⟨(c3_cant_detect_upstream_update_bug 1700000000 (by decide)).2.1,
   (c3_cant_detect_upstream_update_bug 1700000000 (by decide)).2.2.2.1⟩

/-- **C10 counterexample.**  Not every in-repository caller passes a
non-empty prefix to `tag_maxver`: on a bare cgit host URL (empty path)
the cgit branch of `detect_upstream` computes
`project = path.rstrip(slash).split(slash)[-1] = ""`, and `check_cgit`
forwards that project unchecked as the prefix, so `tag_maxver` with a
non-empty tag list raises `UnboundLocalError`. -/
theorem c10_empty_prefix_counterexample :
    detect_upstream "foo" "GITSRC" "http://cgit.example.com" none =
      .ok (some (.cgit "http://cgit.example.com" "")) ∧
    tag_maxver [⟨"v1.0", 0, none⟩] (some "") none = .error .unboundLocal := by
  exact ⟨by decide, by decide⟩

/-! ## anitya detect_links (src/anitya.py lines 16-29 and 105-127)

The SQL subquery groups `anitya_projects` by exact name and keeps the
backend minimal under the `backend_cmp` collation (Python `cmp` of the
`ecosystems` labels, with backends missing from the dict mapping to `""`,
which sorts first); the join keeps the rows whose backend has that
minimal label, ordered by id; the Python loop then keeps the first row
per collapsed name index, and packages are linked to the row whose index
equals their collapsed name. -/

theorem strCmp_isCmp : IsCmp (fun _ : List Char => True) strCmp := by
  refine ⟨fun x _ => strCmp_refl x, fun x y _ _ => strCmp_antisym x y,
    fun x y _ _ => strCmp_range x y,
    fun x y z _ _ _ h1 h2 => strCmp_le_trans x y z h1 h2⟩

structure AProject where
  id : Nat
  name : String
  backend : String
deriving DecidableEq

/-- The `ecosystems` dict, defaulting to `""`. -/
def ecosystemLabel (b : String) : String :=
  if b = "pypi" then "PyPI"
  else if b = "npmjs" then "npm"
  else if b = "Rubygems" then "rubygems"
  else if b = "Maven Central" then "maven"
  else if b = "PyPI" then "PyPI"
  else if b = "crates.io" then "crates.io"
  else ""

/-- `backend_cmp`: Python `cmp` (plain string comparison) of the
ecosystem labels — the SQLite collation of the `min` aggregate. -/
def backend_cmp (a b : String) : Int :=
  strCmp (ecosystemLabel a).data (ecosystemLabel b).data

def insertById (p : AProject) : List AProject → List AProject
  | [] => [p]
  | q :: rest => if p.id ≤ q.id then p :: q :: rest else q :: insertById p rest

/-- `ORDER BY id` (and the rowid scan order of the aggregate). -/
def sortById : List AProject → List AProject
  | [] => []
  | p :: rest => insertById p (sortById rest)

/-- The `min(backend COLLATE backend_cmp)` aggregate over one name
group: scan in order, replace the current best on a strictly smaller
label. -/
def minBackendAcc (n : String) : Option String → List AProject →
    Option String
  | cur, [] => cur
  | cur, r :: rest =>
    if r.name = n then
      minBackendAcc n
        (match cur with
         | none => some r.backend
         | some c =>
           if backend_cmp r.backend c < 0 then some r.backend else some c)
        rest
    else minBackendAcc n cur rest

def minBackend (ps : List AProject) (n : String) : Option String :=
  minBackendAcc n none ps

/-- The join `USING (name, backend)` with the collation attached to the
aggregated column: the rows whose backend label equals the minimal label
of their name group, in id order. -/
def selectedRows (ps : List AProject) : List AProject :=
  (sortById ps).filter (fun r =>
    match minBackend (sortById ps) r.name with
    | some mb => decide (backend_cmp r.backend mb = 0)
    | none => false)

/-- `re_projectrep.sub('', name.lower())`: drop one leading `host/`
(regex `^[^/]+/`), then every character of `[. _-]`. -/
def collapseProject (n : String) : String :=
  let ln := n.data.map toLowerC
  let afterHost := match ln with
    | [] => ln
    | c :: _ =>
      if c ≠ '/' ∧ ln.contains '/' then
        ((splitAtFirst (fun x => x = '/') ln).2).getD ln
      else ln
  ⟨afterHost.filter
    (fun c => !(c = '.' || c = ' ' || c = '_' || c = '-'))⟩

/-- Package-side collapsing:
`name.lower().replace('-','').replace(' ','').replace('_','')` (dots are
kept). -/
def collapsePkg (n : String) : String :=
  ⟨(n.data.map toLowerC).filter
    (fun c => !(c = '-' || c = ' ' || c = '_'))⟩

/-- The `project_index` dict is first-wins per collapsed name; for
lookup purposes it equals the association list of all rows in order,
since `lookup` returns the first hit. -/
def projectIndex (rows : List AProject) : List (String × AProject) :=
  rows.map (fun r => (collapseProject r.name, r))

def detect_links (ps : List AProject) (pkgs : List String) :
    List (String × Nat) :=
  let idx := projectIndex (selectedRows ps)
  pkgs.filterMap (fun n =>
    match idx.lookup (collapsePkg n) with
    | some r => some (n, r.id)
    | none => none)

theorem mem_insertById {x p : AProject} : ∀ {l : List AProject},
    x ∈ insertById p l ↔ x = p ∨ x ∈ l := by
  intro l
  induction l with
  | nil => simp [insertById]
  | cons q rest ih =>
    by_cases h : p.id ≤ q.id
    · simp [insertById, h]
    · simp only [insertById, if_neg h, List.mem_cons, ih]
      tauto

theorem mem_sortById {x : AProject} : ∀ {l : List AProject},
    x ∈ sortById l ↔ x ∈ l := by
  intro l
  induction l with
  | nil => simp [sortById]
  | cons p rest ih =>
    simp only [sortById, mem_insertById, List.mem_cons, ih]

theorem insertById_pairwise {p : AProject} : ∀ {l : List AProject},
    l.Pairwise (fun a b => a.id ≤ b.id) →
    (insertById p l).Pairwise (fun a b => a.id ≤ b.id) := by
  intro l
  induction l with
  | nil => intro _; simp [insertById]
  | cons q rest ih =>
    intro hp
    rcases List.pairwise_cons.mp hp with ⟨hq, hrest⟩
    by_cases h : p.id ≤ q.id
    · rw [insertById, if_pos h]
      refine List.pairwise_cons.mpr ⟨?_, hp⟩
      intro x hx
      rcases List.mem_cons.mp hx with h1 | h1
      · subst h1; exact h
      · exact le_trans h (hq x h1)
    · rw [insertById, if_neg h]
      refine List.pairwise_cons.mpr ⟨?_, ih hrest⟩
      intro x hx
      rcases mem_insertById.mp hx with h1 | h1
      · subst h1; omega
      · exact hq x h1

theorem sortById_pairwise : ∀ (l : List AProject),
    (sortById l).Pairwise (fun a b => a.id ≤ b.id) := by
  intro l
  induction l with
  | nil => simp [sortById]
  | cons p rest ih => exact insertById_pairwise ih

theorem backend_cmp_zero_le_trans {a b c : String}
    (h1 : backend_cmp a b = 0) (h2 : backend_cmp b c ≤ 0) :
    backend_cmp a c ≤ 0 := by
  unfold backend_cmp at h1 h2 ⊢
  rw [strCmp_isCmp.congr_left trivial trivial trivial h1]
  exact h2

theorem backend_cmp_neg_flip {a b : String}
    (h : ¬ backend_cmp a b < 0) : backend_cmp b a ≤ 0 := by
  unfold backend_cmp at h ⊢
  have := strCmp_antisym (ecosystemLabel a).data (ecosystemLabel b).data
  omega

/-- Specification of the `min` fold: the result is minimal (under the
collation) among the group members and the seed. -/
theorem minBackendAcc_le (n : String) :
    ∀ (l : List AProject) (cur : Option String) (mb : String),
    minBackendAcc n cur l = some mb →
    (∀ q ∈ l, q.name = n → backend_cmp mb q.backend ≤ 0) ∧
    (∀ c, cur = some c → backend_cmp mb c ≤ 0) := by
  intro l
  induction l with
  | nil =>
    intro cur mb h
    refine ⟨by simp, ?_⟩
    intro c hc
    rw [hc] at h
    have : mb = c := by
      simpa [minBackendAcc] using h.symm
    subst this
    unfold backend_cmp
    rw [strCmp_refl]
  | cons r rest ih =>
    intro cur mb h
    by_cases hn : r.name = n
    · simp only [minBackendAcc] at h
      rw [if_pos hn] at h
      rcases cur with _ | c
      · have h2 := ih (some r.backend) mb h
        refine ⟨?_, by simp⟩
        intro q hq hqn
        rcases List.mem_cons.mp hq with h1 | h1
        · rw [h1]; exact h2.2 r.backend rfl
        · exact h2.1 q h1 hqn
      · by_cases hlt : backend_cmp r.backend c < 0
        · simp only [hlt, if_pos] at h
          have h2 := ih (some r.backend) mb h
          refine ⟨?_, ?_⟩
          · intro q hq hqn
            rcases List.mem_cons.mp hq with h1 | h1
            · rw [h1]; exact h2.2 r.backend rfl
            · exact h2.1 q h1 hqn
          · intro c0 hc0
            have he : c0 = c := by
              injection hc0 with he
              exact he.symm
            rw [he]
            have hmb := h2.2 r.backend rfl
            unfold backend_cmp at hmb hlt ⊢
            exact strCmp_le_trans _ _ _ hmb (by omega)
        · simp only [hlt, if_neg, if_false] at h
          have h2 := ih (some c) mb h
          refine ⟨?_, ?_⟩
          · intro q hq hqn
            rcases List.mem_cons.mp hq with h1 | h1
            · rw [h1]
              have hmb := h2.2 c rfl
              have hcr : backend_cmp c r.backend ≤ 0 :=
                backend_cmp_neg_flip hlt
              unfold backend_cmp at hmb hcr ⊢
              exact strCmp_le_trans _ _ _ hmb hcr
            · exact h2.1 q h1 hqn
          · intro c0 hc0
            have he : c0 = c := by
              injection hc0 with he
              exact he.symm
            rw [he]
            exact h2.2 c rfl
    · simp only [minBackendAcc] at h
      rw [if_neg hn] at h
      have h2 := ih cur mb h
      refine ⟨?_, h2.2⟩
      intro q hq hqn
      rcases List.mem_cons.mp hq with h1 | h1
      · rw [h1] at hqn; exact absurd hqn hn
      · exact h2.1 q h1 hqn

/-- Lookup in the project index of an id-sorted row list returns a row
of that collapsed name with the smallest id among matching rows. -/
theorem projectIndex_lookup_spec :
    ∀ (rows : List AProject) (k : String) (r : AProject),
    (projectIndex rows).lookup k = some r →
    r ∈ rows ∧ collapseProject r.name = k ∧
    (rows.Pairwise (fun a b => a.id ≤ b.id) →
      ∀ q ∈ rows, collapseProject q.name = k → r.id ≤ q.id) := by
  intro rows
  induction rows with
  | nil => intro k r h; simp [projectIndex] at h
  | cons p rest ih =>
    intro k r h
    simp only [projectIndex, List.map_cons, List.lookup] at h
    by_cases hk : collapseProject p.name = k
    · have hbeq : (k == collapseProject p.name) = true := by
        simp [hk]
      rw [hbeq] at h
      simp only [Option.some.injEq] at h
      subst h
      refine ⟨by simp, hk, ?_⟩
      intro hpw q hq _
      rcases List.mem_cons.mp hq with h1 | h1
      · subst h1; exact le_refl _
      · exact (List.pairwise_cons.mp hpw).1 q h1
    · have hbeq : (k == collapseProject p.name) = false := by
        simp only [beq_eq_false_iff_ne]
        exact fun he => hk he.symm
      rw [hbeq] at h
      have h2 := ih k r h
      refine ⟨List.mem_cons_of_mem p h2.1, h2.2.1, ?_⟩
      intro hpw q hq hqk
      rcases List.mem_cons.mp hq with h1 | h1
      · subst h1; exact absurd hqk hk
      · exact h2.2.2 (List.pairwise_cons.mp hpw).2 q h1 hqk

theorem selectedRows_spec {ps : List AProject} {r : AProject}
    (h : r ∈ selectedRows ps) :
    r ∈ ps ∧
    (∀ q ∈ ps, q.name = r.name → backend_cmp r.backend q.backend ≤ 0) := by
  rcases List.mem_filter.mp h with ⟨hmem, hcond⟩
  have hps : r ∈ ps := mem_sortById.mp hmem
  refine ⟨hps, ?_⟩
  intro q hq hqn
  rcases hmb : minBackend (sortById ps) r.name with _ | mb
  · rw [hmb] at hcond; simp at hcond
  · rw [hmb] at hcond
    simp only [decide_eq_true_eq] at hcond
    have hle := (minBackendAcc_le r.name (sortById ps) none mb hmb).1
    have hq' : q ∈ sortById ps := mem_sortById.mpr hq
    exact backend_cmp_zero_le_trans hcond (hle q hq' (by rw [hqn]))

/-- **C4 counterexample.**  The claimed priority
PyPI > npm > rubygems > maven > crates.io > others is not what the code
implements: the collation orders ecosystem labels as plain strings with
unknown backends mapping to `""` (sorting first).  So with projects
`(1, "foo", "npmjs")` and `(2, "foo", "crates.io")` the crates.io
project (id 2) is linked, not the npm one (id 1); and with
`(1, "foo", "pypi")` and `(2, "foo", "obscure")` the unknown backend
wins over PyPI. -/
theorem c4_detect_links_counterexample :
    detect_links [⟨1, "foo", "npmjs"⟩, ⟨2, "foo", "crates.io"⟩] ["foo"] =
      [("foo", 2)] ∧
    detect_links [⟨1, "foo", "npmjs"⟩, ⟨2, "foo", "crates.io"⟩] ["foo"] ≠
      [("foo", 1)] ∧
    detect_links [⟨1, "foo", "pypi"⟩, ⟨2, "foo", "obscure"⟩] ["foo"] =
      [("foo", 2)] := by
  refine ⟨by decide, by decide, by decide⟩

/-- **C4 (amended).**  Within a name group the backend whose ecosystem
label (unmapped backends give `""`) is smallest in plain string order is
preferred — concretely `others > PyPI > crates.io > maven > npm >
rubygems` —, and every link produced by `detect_links` goes to a project
that collapses to the package name, has a minimal-label backend within
its exact-name group, and has the smallest id among the surviving rows
with that collapsed name. -/
theorem c4_detect_links_amended :
    (backend_cmp "gnome" "pypi" = -1 ∧
     backend_cmp "pypi" "crates.io" = -1 ∧
     backend_cmp "crates.io" "Maven Central" = -1 ∧
     backend_cmp "Maven Central" "npmjs" = -1 ∧
     backend_cmp "npmjs" "Rubygems" = -1) ∧
    ∀ (ps : List AProject) (pkgs : List String) (pkg : String) (pid : Nat),
      (pkg, pid) ∈ detect_links ps pkgs →
      ∃ r, r ∈ ps ∧ r.id = pid ∧
        collapseProject r.name = collapsePkg pkg ∧
        (∀ q ∈ ps, q.name = r.name →
          backend_cmp r.backend q.backend ≤ 0) ∧
        (∀ q ∈ selectedRows ps,
          collapseProject q.name = collapsePkg pkg → pid ≤ q.id) := by
  refine ⟨⟨by decide, by decide, by decide, by decide, by decide⟩, ?_⟩
  intro ps pkgs pkg pid hmem
  rcases List.mem_filterMap.mp hmem with ⟨n, _, hn⟩
  rcases hl : (projectIndex (selectedRows ps)).lookup (collapsePkg n) with
    _ | r
  · rw [hl] at hn; simp at hn
  · rw [hl] at hn
    simp only [Option.some.injEq, Prod.mk.injEq] at hn
    obtain ⟨hn1, hn2⟩ := hn
    rw [hn1] at hl
    have hspec := projectIndex_lookup_spec (selectedRows ps)
      (collapsePkg pkg) r hl
    have hsorted : (selectedRows ps).Pairwise (fun a b => a.id ≤ b.id) :=
      List.Pairwise.filter _ (sortById_pairwise ps)
    have hsel := selectedRows_spec hspec.1
    refine ⟨r, hsel.1, hn2, hspec.2.1, hsel.2, ?_⟩
    intro q hq hqk
    rw [← hn2]
    exact hspec.2.2 hsorted q hq hqk

/-- Witness for C4 (amended): the soundness component applied at a
concrete project list and package. -/
theorem c4_detect_links_amended_witness :
    ∃ r, r ∈ [(⟨5, "bar", "pypi"⟩ : AProject)] ∧ r.id = 5 ∧
      collapseProject r.name = collapsePkg "bar" ∧
      (∀ q ∈ [(⟨5, "bar", "pypi"⟩ : AProject)], q.name = r.name →
        backend_cmp r.backend q.backend ≤ 0) ∧
      (∀ q ∈ selectedRows [(⟨5, "bar", "pypi"⟩ : AProject)],
        collapseProject q.name = collapsePkg "bar" → 5 ≤ q.id) :=
  c4_detect_links_amended.2 [⟨5, "bar", "pypi"⟩] ["bar"] "bar" 5 (by decide)

end Piss
